import Mathlib

/-!
# Verification of the `slotmachine` talk scheduler

A shallow embedding of `slotmachine/__init__.py` (the emfcamp slot-machine
scheduler).  Slots, talk ids and venue ids are Python ints, embedded as `Int`.
PuLP variables are embedded as records carrying a creation index (modelling
Python object identity within one model build), the PuLP name string and the
variable kind (free binary, or an `Integer` variable with bounds `0..0`).
Linear expressions are formal lists of (coefficient, variable-name) pairs plus
a constant; constraints are equalities / upper bounds on such expressions.
Python dict lookups that can raise `KeyError` are embedded in the `Option`
monad.  The external CBC solver is an opaque collaborator: it is modelled by a
status string together with a value assignment for the variable names.
-/

/-- Variable kind: `pulp.LpVariable(name, cat="Binary")` versus
`pulp.LpVariable(name, lowBound=0, upBound=0, cat="Integer")` (a variable
forced to the constant 0). -/
inductive VKind where
  | binary : VKind
  | fixedZero : VKind
deriving DecidableEq, Repr

/-- A PuLP variable.  `idx` is the creation ordinal inside one model build and
models Python object identity (each `pulp.LpVariable(...)` call yields a fresh
object); `name` is the PuLP name string; `kind` the bounds/category. -/
structure LpVar where
  idx : Nat
  name : String
  kind : VKind
deriving DecidableEq, Repr

/-- A linear expression: formal sum of `coeff * variable` terms plus a
constant (PuLP `LpAffineExpression`).  Variables are referenced by name, which
is injective within one build because every variable is registered in the
name-keyed cache at creation. -/
structure LinExpr where
  terms : List (Int × String)
  const : Int
deriving DecidableEq, Repr

/-- The expression consisting of a single variable. -/
def LinExpr.ofVar (v : LpVar) : LinExpr := ⟨[(1, v.name)], 0⟩

/-- `pulp.lpSum` of a list of variables. -/
def LinExpr.sumVars (vs : List LpVar) : LinExpr := ⟨vs.map fun v => (1, v.name), 0⟩

/-- A constant expression. -/
def LinExpr.cst (c : Int) : LinExpr := ⟨[], c⟩

/-- Scalar multiplication `c * e`. -/
def LinExpr.smul (c : Int) (e : LinExpr) : LinExpr :=
  ⟨e.terms.map fun t => (c * t.1, t.2), c * e.const⟩

/-- Addition of linear expressions. -/
def LinExpr.add (a b : LinExpr) : LinExpr := ⟨a.terms ++ b.terms, a.const + b.const⟩

/-- A constraint of the PuLP problem: `l == r` or `l <= c`. -/
inductive Constr where
  | ceq : LinExpr → LinExpr → Constr
  | cle : LinExpr → Int → Constr
deriving DecidableEq, Repr

/-- The `Talk` dataclass.  Python `set` fields are embedded as lists (only
membership and iteration are used; iteration order of a Python set is
unspecified, the embedding fixes one). -/
structure Talk where
  id : Int
  duration : Int
  venues : List Int
  speakers : List String
  preferred_venues : List Int
  allowed_slots : List Int
  preferred_slots : List Int
deriving DecidableEq, Repr

/-- The mutable state of a `SlotMachine` instance together with the PuLP
problem under construction: `talks_by_id`, `slots_available`, `var_cache`
(keyed by variable name), the constraint list and objective of
`self.problem`, and the creation counter backing `LpVar.idx`. -/
structure SM where
  talks_by_id : List (Int × Talk)
  slots_available : List Int
  var_cache : List (String × LpVar)
  constraints : List Constr
  objective : LinExpr
  next : Nat
deriving DecidableEq, Repr

/-- `SlotMachine.__init__`: empty talk table, no available slots, empty
variable cache (and no problem built yet). -/
def SM.init : SM := ⟨[], [], [], [], LinExpr.cst 0, 0⟩

/-- `problem.addConstraint(c)`: append `c` to the constraint list. -/
def SM.addConstraint (sm : SM) (c : Constr) : SM :=
  { sm with constraints := sm.constraints ++ [c] }

/-- The name `"B_%d_%d_%d" % (slot, talk_id, venue)` of a start variable. -/
def nameB (slot talk_id venue : Int) : String :=
  "B_" ++ toString slot ++ "_" ++ toString talk_id ++ "_" ++ toString venue

/-- The name `"A_%d_%d_%d" % (slot, talk_id, venue)` of an active variable. -/
def nameA (slot talk_id venue : Int) : String :=
  "A_" ++ toString slot ++ "_" ++ toString talk_id ++ "_" ++ toString venue

/-- Python `range(a, b)` (step 1) over `Int` bounds. -/
def pyRangeUp (a b : Int) : List Int :=
  (List.range (b - a).toNat).map fun i => a + Int.ofNat i

/-- Python `range(a, b, -1)` over `Int` bounds: `a, a-1, ..., b+1`. -/
def pyRangeDown (a b : Int) : List Int :=
  (List.range (a - b).toNat).map fun i => a - Int.ofNat i

/-- `SlotMachine.start_var`: the 0/1 variable that is 1 if the talk begins in
this slot and venue.  Cached by name; on a cache miss the talk is looked up in
`talks_by_id` (`KeyError` ↦ `none`) and the variable is a free binary exactly
when all the slots `slot .. slot+duration-1` are in `slots_available`,
otherwise an `Integer` variable with bounds `0..0`. -/
def start_var (sm : SM) (slot talk_id venue : Int) : Option (LpVar × SM) :=
  let name := nameB slot talk_id venue
  match sm.var_cache.lookup name with
  | some v => some (v, sm)
  | none => do
    let talk ← sm.talks_by_id.lookup talk_id
    let contiguous := (List.range talk.duration.toNat).all
      fun off => decide ((slot + Int.ofNat off) ∈ sm.slots_available)
    let var : LpVar :=
      if contiguous then ⟨sm.next, name, VKind.binary⟩
      else ⟨sm.next, name, VKind.fixedZero⟩
    some (var, { sm with var_cache := (name, var) :: sm.var_cache, next := sm.next + 1 })

/-- Fold of `start_var` over a list of `(slot, talk_id, venue)` keys (a PuLP
`lpSum` generator consuming `self.start_var(...)` calls left to right). -/
def callStarts : List (Int × Int × Int) → SM → Option (List LpVar × SM)
  | [], sm => some ([], sm)
  | k :: ks, sm => do
    let (v, sm1) ← start_var sm k.1 k.2.1 k.2.2
    let (vs, sm2) ← callStarts ks sm1
    some (v :: vs, sm2)

/-- `SlotMachine.active`: the 0/1 variable that is 1 if the talk is active
during this slot and venue.  Cached by name; on a cache miss the variable is a
free binary exactly when the slot is in the talk's `allowed_slots` and the
venue in its `venues` (else bounds `0..0`), and the defining equality
`variable == lpSum(start_var(s, talk_id, venue) for s in
range(slot, max(-1, slot - duration), -1))` is added to the problem. -/
def active (sm : SM) (slot talk_id venue : Int) : Option (LpVar × SM) :=
  let name := nameA slot talk_id venue
  match sm.var_cache.lookup name with
  | some v => some (v, sm)
  | none => do
    let talk ← sm.talks_by_id.lookup talk_id
    let varA : LpVar :=
      if slot ∈ talk.allowed_slots ∧ venue ∈ talk.venues then ⟨sm.next, name, VKind.binary⟩
      else ⟨sm.next, name, VKind.fixedZero⟩
    let sm1 : SM := { sm with next := sm.next + 1 }
    let (startVars, sm2) ← callStarts
      ((pyRangeDown slot (max (-1) (slot - talk.duration))).map fun s => (s, talk_id, venue)) sm1
    some (varA, { sm2 with
      constraints := sm2.constraints ++
        [Constr.ceq (LinExpr.ofVar varA) (LinExpr.sumVars startVars)],
      var_cache := (name, varA) :: sm2.var_cache })

/-- Fold of `active` over a list of `(slot, talk_id, venue)` keys. -/
def callActives : List (Int × Int × Int) → SM → Option (List LpVar × SM)
  | [], sm => some ([], sm)
  | k :: ks, sm => do
    let (v, sm1) ← active sm k.1 k.2.1 k.2.2
    let (vs, sm2) ← callActives ks sm1
    some (v :: vs, sm2)

/-- The dict comprehension `{talk.id: talk for talk in talks}`: on duplicate
ids the later entry wins, so the association list is reversed (its lookup
finds the first, i.e. latest, binding). -/
def talksMap (talks : List Talk) : List (Int × Talk) :=
  (talks.map fun t => (t.id, t)).reverse

/-- Keys of the exactly-one-start sum for one talk:
`for venue in venues for slot in slots_available`. -/
def startKeys (venues slots : List Int) (tid : Int) : List (Int × Int × Int) :=
  venues.flatMap fun v => slots.map fun s => (s, tid, v)

/-- The "every talk begins exactly once" loop of `get_problem`. -/
def phase1 (venues : List Int) : List Talk → SM → Option SM
  | [], sm => some sm
  | t :: ts, sm => do
    let (vars, sm1) ← callStarts (startKeys venues sm.slots_available t.id) sm
    phase1 venues ts (sm1.addConstraint (Constr.ceq (LinExpr.sumVars vars) (LinExpr.cst 1)))

/-- The iteration order `for v in venues: for slot in slots_available` of the
venue mutual-exclusion loop. -/
def venueSlotPairs (venues slots : List Int) : List (Int × Int) :=
  venues.flatMap fun v => slots.map fun s => (v, s)

/-- The "at most one talk may be active in a given venue and slot" loop. -/
def phase2 (talks : List Talk) : List (Int × Int) → SM → Option SM
  | [], sm => some sm
  | p :: rest, sm => do
    let (vars, sm1) ← callActives (talks.map fun t => (p.2, t.id, p.1)) sm
    phase2 talks rest (sm1.addConstraint (Constr.cle (LinExpr.sumVars vars) 1))

/-- Keys of the preferred-venue objective term:
`for talk in talks for venue in talk.preferred_venues for slot in slots_available`. -/
def prefVenueKeys (slots : List Int) (talks : List Talk) : List (Int × Int × Int) :=
  talks.flatMap fun t => t.preferred_venues.flatMap fun v => slots.map fun s => (s, t.id, v)

/-- Keys of the preferred-slot objective term:
`for talk in talks for slot in talk.preferred_slots for venue in venues`. -/
def prefSlotKeys (venues : List Int) (talks : List Talk) : List (Int × Int × Int) :=
  talks.flatMap fun t => t.preferred_slots.flatMap fun s => venues.map fun v => (s, t.id, v)

/-- Keys of the stay-in-place objective term: for each old talk
`(slot, talk_id, venue)`, `for s in range(slot, slot + duration)` in the same
venue; `self.talks_by_id[talk_id]` may raise `KeyError`. -/
def oldSameVenueKeys (m : List (Int × Talk)) : List (Int × Int × Int) → Option (List (Int × Int × Int))
  | [] => some []
  | k :: rest => do
    let t ← m.lookup k.2.1
    let ks ← oldSameVenueKeys m rest
    some ((pyRangeUp k.1 (k.1 + t.duration)).map (fun s => (s, k.2.1, k.2.2)) ++ ks)

/-- Keys of the move-stage-not-slot objective term: the old window
`range(slot, slot + duration)` crossed with the talk's allowed venues. -/
def oldAnyVenueKeys (m : List (Int × Talk)) : List (Int × Int × Int) → Option (List (Int × Int × Int))
  | [] => some []
  | k :: rest => do
    let t ← m.lookup k.2.1
    let ks ← oldAnyVenueKeys m rest
    some ((pyRangeUp k.1 (k.1 + t.duration)).flatMap (fun s => t.venues.map fun v => (s, k.2.1, v)) ++ ks)

/-- Keys of the ±60-minute drift objective term:
`range(slot - 6, slot + duration + 6)` crossed with the talk's allowed venues. -/
def oldDriftKeys (m : List (Int × Talk)) : List (Int × Int × Int) → Option (List (Int × Int × Int))
  | [] => some []
  | k :: rest => do
    let t ← m.lookup k.2.1
    let ks ← oldDriftKeys m rest
    some ((pyRangeUp (k.1 - 6) (k.1 + t.duration + 6)).flatMap (fun s => t.venues.map fun v => (s, k.2.1, v)) ++ ks)

/-- The objective assignment `self.problem += 5 * lpSum(...) + 10 * lpSum(...)
+ 10 * lpSum(...) + 5 * lpSum(...) + 1 * lpSum(...)` of `get_problem`. -/
def phase3 (venues : List Int) (talks : List Talk) (old : List (Int × Int × Int)) (sm : SM) :
    Option SM := do
  let (vs1, sm1) ← callActives (prefVenueKeys sm.slots_available talks) sm
  let (vs2, sm2) ← callActives (prefSlotKeys venues talks) sm1
  let k3 ← oldSameVenueKeys sm.talks_by_id old
  let (vs3, sm3) ← callActives k3 sm2
  let k4 ← oldAnyVenueKeys sm.talks_by_id old
  let (vs4, sm4) ← callActives k4 sm3
  let k5 ← oldDriftKeys sm.talks_by_id old
  let (vs5, sm5) ← callActives k5 sm4
  let obj :=
    LinExpr.add
      (LinExpr.add
        (LinExpr.add
          (LinExpr.add (LinExpr.smul 5 (LinExpr.sumVars vs1)) (LinExpr.smul 10 (LinExpr.sumVars vs2)))
          (LinExpr.smul 10 (LinExpr.sumVars vs3)))
        (LinExpr.smul 5 (LinExpr.sumVars vs4)))
      (LinExpr.smul 1 (LinExpr.sumVars vs5))
  some { sm5 with objective := obj }

/-- `talks_by_speaker.setdefault(speaker, []).append(talk.id)` on an
association list that preserves dict insertion order. -/
def setdefaultAppendTalk (d : List (String × List Int)) (sp : String) (tid : Int) :
    List (String × List Int) :=
  if d.any (fun p => p.1 == sp) then
    d.map fun p => if p.1 == sp then (p.1, p.2 ++ [tid]) else p
  else d ++ [(sp, [tid])]

/-- The `talks_by_speaker` dict: speakers in order of first appearance, talk
ids appended in talks order. -/
def talksBySpeaker (talks : List Talk) : List (String × List Int) :=
  talks.foldl (fun d t => t.speakers.foldl (fun d2 sp => setdefaultAppendTalk d2 sp t.id) d) []

/-- Inner loop of the speaker-conflict constraints: one `<= 1` constraint per
available slot over the conflicting talks and all venues. -/
def speakerSlotLoop (venues conflicts : List Int) : List Int → SM → Option SM
  | [], sm => some sm
  | slot :: rest, sm => do
    let (vars, sm1) ← callActives (conflicts.flatMap fun tid => venues.map fun v => (slot, tid, v)) sm
    speakerSlotLoop venues conflicts rest (sm1.addConstraint (Constr.cle (LinExpr.sumVars vars) 1))

/-- The speaker-conflict loop of `get_problem`: only speaker groups with more
than one talk generate constraints. -/
def phase4 (venues : List Int) : List (String × List Int) → SM → Option SM
  | [], sm => some sm
  | g :: rest, sm => do
    let sm1 ← if g.2.length > 1 then speakerSlotLoop venues g.2 sm.slots_available sm else some sm
    phase4 venues rest sm1

/-- The four constraint/objective-building passes of `get_problem`, run on a
freshly reset state `sm0`. -/
def buildPhases (venues : List Int) (talks : List Talk) (old : List (Int × Int × Int))
    (sm0 : SM) : Option SM := do
  let sm1 ← phase1 venues talks sm0
  let sm2 ← phase2 talks (venueSlotPairs venues sm0.slots_available) sm1
  let sm3 ← phase3 venues talks old sm2
  phase4 venues (talksBySpeaker talks) sm3

/-- `SlotMachine.get_problem`: reset the problem, the variable cache (and the
creation counter that models within-build object identity), rebuild
`talks_by_id`, then add the exactly-one-start constraints, the venue
mutual-exclusion constraints, the weighted objective, and the speaker
non-overlap constraints. -/
def get_problem (sm : SM) (venues : List Int) (talks : List Talk)
    (old : List (Int × Int × Int)) : Option SM :=
  buildPhases venues talks old
    { sm with
      constraints := []
      objective := LinExpr.cst 0
      var_cache := []
      talks_by_id := talksMap talks
      next := 0 }

/-- The result-extraction comprehension of `schedule_talks`: for each
`(slot, talk, venue)` key (in comprehension order) call `start_var` and keep
the key iff the solved value of the returned variable is exactly 1.  `ρ` is
the solver's value assignment, by variable name. -/
def extractGo (ρ : String → Int) : List (Int × Int × Int) → SM → Option (List (Int × Int × Int) × SM)
  | [], sm => some ([], sm)
  | k :: ks, sm => do
    let (v, sm1) ← start_var sm k.1 k.2.1 k.2.2
    let (rest, sm2) ← extractGo ρ ks sm1
    some ((if ρ v.name = 1 then [k] else []) ++ rest, sm2)

/-- The key order `for slot in slots_available for talk in talks for venue in
venues` of the extraction comprehension. -/
def prodKeys (slots : List Int) (talks : List Talk) (venues : List Int) :
    List (Int × Int × Int) :=
  slots.flatMap fun s => talks.flatMap fun t => venues.map fun v => (s, t.id, v)

/-- The venue set `{v for talk in talks for v in talk.venues}` derived by
`schedule_talks`. -/
def derivedVenues (talks : List Talk) : List Int :=
  (talks.flatMap fun t => t.venues).dedup

/-- `SlotMachine.schedule_talks`: build the problem, solve (the solver is
modelled by its reported `status` string and value assignment `ρ`), raise
`Unsatisfiable` (`Except.error ()`) iff the status is not `"Optimal"`, and
otherwise return the start triples whose variable solved to exactly 1. -/
def schedule_talks (sm : SM) (talks : List Talk) (old : List (Int × Int × Int))
    (status : String) (ρ : String → Int) : Option (Except Unit (List (Int × Int × Int)) × SM) :=
  let venues := derivedVenues talks
  match get_problem sm venues talks old with
  | none => none
  | some sm' =>
    if status = "Optimal" then
      match extractGo ρ (prodKeys sm'.slots_available talks venues) sm' with
      | none => none
      | some (res, sm'') => some (Except.ok res, sm'')
    else some (Except.error (), sm')

/-- `SlotMachine.num_slots`: `int((end_time - start_time).total_seconds() /
60 / 10)` with timestamps in seconds; Python `int()` truncates toward zero,
i.e. `Int.tdiv`. -/
def num_slots (start_time end_time : Int) : Int :=
  (end_time - start_time).tdiv 600

/-- `SlotMachine.calculate_slots`: the slot list of a time range, with
`spacing_slots` extra trailing slots for the changeover gap. -/
def calculate_slots (event_start range_start range_end : Int) (spacing_slots : Int) :
    List Int :=
  let slot_start := (range_start - event_start).tdiv 600
  pyRangeUp slot_start (slot_start + num_slots range_start range_end + spacing_slots)

/-- `SlotMachine.calc_time`: `event_start + relativedelta(minutes=slots*10)`. -/
def calc_time (event_start : Int) (slots : Int) : Int :=
  event_start + slots * 600

/-- `SlotMachine.calc_slot`: slot index of a timestamp. -/
def calc_slot (event_start : Int) (time_ : Int) : Int :=
  (time_ - event_start).tdiv 600

/-- A wall-clock time range of the schedule document (timestamps parsed to
seconds; `stop` embeds the JSON field `"end"`). -/
structure TimeRange where
  start : Int
  stop : Int
deriving DecidableEq, Repr

/-- An event record of the schedule document.  Optional JSON fields are
`Option`s. -/
structure Event where
  id : Int
  time_ranges : List TimeRange
  preferred_time_ranges : List TimeRange
  valid_venues : List Int
  preferred_venues : List Int
  speakers : List String
  duration : Int
  spacing_slots : Option Int
  time : Option Int
  venue : Option Int
deriving DecidableEq, Repr

/-- `self.slots_available.union(slots)` (set union; the embedding keeps the
existing elements and appends the new ones). -/
def pyUnion (a b : List Int) : List Int :=
  a ++ b.filter fun x => decide (x ∉ a)

/-- The output of the per-event loop of `SlotMachine.schedule`: the built
`Talk` list, the updated `slots_available`, and the `old_slots` prior
placements. -/
structure BuildOut where
  talks : List Talk
  avail : List Int
  olds : List (Int × Int × Int)
deriving DecidableEq, Repr

/-- The per-event loop of `SlotMachine.schedule`.  Note the faithful
re-assignment `spacing_slots = event.get("spacing_slots", spacing_slots)`:
the loop variable carries the last override forward into later events. -/
def buildTalks (event_start : Int) : List Event → Int → List Int → BuildOut
  | [], _, avail => ⟨[], avail, []⟩
  | e :: es, spacing, avail =>
    let spacing2 := e.spacing_slots.getD spacing
    let slots := e.time_ranges.flatMap fun r =>
      calculate_slots event_start r.start r.stop spacing2
    let pslots := e.preferred_time_ranges.flatMap fun r =>
      calculate_slots event_start r.start r.stop spacing2
    let avail2 := pyUnion avail slots
    let talk : Talk := ⟨e.id, e.duration.tdiv 10 + spacing2, e.valid_venues, e.speakers,
      e.preferred_venues, slots, pslots⟩
    let old : List (Int × Int × Int) :=
      match e.time, e.venue with
      | some tm, some ven => [(calc_slot event_start tm, e.id, ven)]
      | _, _ => []
    let rest := buildTalks event_start es spacing2 avail2
    ⟨talk :: rest.talks, rest.avail, old ++ rest.olds⟩

/-! ## Semantic layer: well-formedness, state evolution, solver assignments -/

/-- The variable names registered in the cache. -/
def cacheKeys (sm : SM) : List String := sm.var_cache.map Prod.fst

/-- Cache well-formedness: every cached variable is stored under its own
name (true by construction: `self.var_cache[name] = var` right after
`pulp.LpVariable(name, ...)`). -/
def WFcache (sm : SM) : Prop := ∀ p ∈ sm.var_cache, p.2.name = p.1

/-- What every variable- or constraint-creating step of one model build
preserves: the talk table and slot grid are read-only, and the cache and
constraint list only grow. -/
def StepsTo (sm sm' : SM) : Prop :=
  sm'.talks_by_id = sm.talks_by_id ∧ sm'.slots_available = sm.slots_available ∧
  (∀ n, n ∈ cacheKeys sm → n ∈ cacheKeys sm') ∧
  (∀ c, c ∈ sm.constraints → c ∈ sm'.constraints)

/-- Value of a linear expression under a solver assignment (variable values
keyed by name). -/
def evalLin (ρ : String → Int) (e : LinExpr) : Int :=
  (e.terms.map fun t => t.1 * ρ t.2).sum + e.const

/-- A constraint holds under an assignment. -/
def constrHolds (ρ : String → Int) : Constr → Prop
  | Constr.ceq l r => evalLin ρ l = evalLin ρ r
  | Constr.cle l c => evalLin ρ l ≤ c

instance (ρ : String → Int) : DecidablePred (constrHolds ρ) := fun c =>
  match c with
  | Constr.ceq l r => decidable_of_iff (evalLin ρ l = evalLin ρ r) Iff.rfl
  | Constr.cle l c' => decidable_of_iff (evalLin ρ l ≤ c') Iff.rfl

/-- An assignment satisfies a constraint list. -/
def satisfies (ρ : String → Int) (cs : List Constr) : Prop := ∀ c ∈ cs, constrHolds ρ c

/-- An assignment respects the bounds/category of every cached variable:
binary variables take value 0 or 1, `0..0` variables take value 0 (what CBC
guarantees on an Optimal status). -/
def respects (ρ : String → Int) (sm : SM) : Prop :=
  ∀ p ∈ sm.var_cache,
    (p.2.kind = VKind.binary → ρ p.2.name = 0 ∨ ρ p.2.name = 1) ∧
    (p.2.kind = VKind.fixedZero → ρ p.2.name = 0)

instance (ρ : String → Int) (cs : List Constr) : Decidable (satisfies ρ cs) :=
  decidable_of_iff (∀ c ∈ cs, constrHolds ρ c) Iff.rfl

instance (ρ : String → Int) (sm : SM) : Decidable (respects ρ sm) :=
  decidable_of_iff (∀ p ∈ sm.var_cache,
    (p.2.kind = VKind.binary → ρ p.2.name = 0 ∨ ρ p.2.name = 1) ∧
    (p.2.kind = VKind.fixedZero → ρ p.2.name = 0)) Iff.rfl

/-- The exactly-one-start constraint emitted for one talk. -/
def eqOneConstr (venues slots : List Int) (tid : Int) : Constr :=
  Constr.ceq ⟨(startKeys venues slots tid).map fun k => (1, nameB k.1 k.2.1 k.2.2), 0⟩
    (LinExpr.cst 1)

/-- `lpSum` of active variables given by their keys. -/
def nameSumA (ks : List (Int × Int × Int)) : LinExpr :=
  ⟨ks.map fun k => (1, nameA k.1 k.2.1 k.2.2), 0⟩

/-- The objective expression in terms of the five key lists. -/
def objExpr (slots venues : List Int) (talks : List Talk)
    (k3 k4 k5 : List (Int × Int × Int)) : LinExpr :=
  LinExpr.add
    (LinExpr.add
      (LinExpr.add
        (LinExpr.add (LinExpr.smul 5 (nameSumA (prefVenueKeys slots talks)))
          (LinExpr.smul 10 (nameSumA (prefSlotKeys venues talks))))
        (LinExpr.smul 10 (nameSumA k3)))
      (LinExpr.smul 5 (nameSumA k4)))
    (LinExpr.smul 1 (nameSumA k5))

/-! ## Spec-side definitions (written from the specification's words, to be
compared with the embedding of the source) -/

/-- Spec wording, objective term 3: "the sum, for each prior placement
(slot, talk, venue), of active over the slots the prior duration spanned in
the same venue" — the spanned slots are `slot .. slot + duration - 1`. -/
def specSameVenueKeys (m : List (Int × Talk)) : List (Int × Int × Int) → Option (List (Int × Int × Int))
  | [] => some []
  | k :: rest => do
    let t ← m.lookup k.2.1
    let ks ← specSameVenueKeys m rest
    some ((pyRangeUp k.1 (k.1 + t.duration - 1 + 1)).map (fun s => (s, k.2.1, k.2.2)) ++ ks)

/-- Spec wording, objective term 4: "the same prior-window sum over every
allowed venue of the talk". -/
def specAnyVenueKeys (m : List (Int × Talk)) : List (Int × Int × Int) → Option (List (Int × Int × Int))
  | [] => some []
  | k :: rest => do
    let t ← m.lookup k.2.1
    let ks ← specAnyVenueKeys m rest
    some ((pyRangeUp k.1 (k.1 + t.duration - 1 + 1)).flatMap
      (fun s => t.venues.map fun v => (s, k.2.1, v)) ++ ks)

/-- Spec wording, objective term 5: "the sum of active over the talk's
allowed venues for slots from 6 before the prior start to 6 past the prior
window (a ±6-slot drift window)" — slots `slot - 6 .. (slot + duration - 1) + 6`. -/
def specDriftKeys (m : List (Int × Talk)) : List (Int × Int × Int) → Option (List (Int × Int × Int))
  | [] => some []
  | k :: rest => do
    let t ← m.lookup k.2.1
    let ks ← specDriftKeys m rest
    some ((pyRangeUp (k.1 - 6) (k.1 + t.duration - 1 + 6 + 1)).flatMap
      (fun s => t.venues.map fun v => (s, k.2.1, v)) ++ ks)

/-- The objective as the specification words it: the single linear
combination, with weights 5/10/10/5/1, of the five active-variable sums. -/
def specObjective (slots venues : List Int) (talks : List Talk) (m : List (Int × Talk))
    (old : List (Int × Int × Int)) : Option LinExpr := do
  let k3 ← specSameVenueKeys m old
  let k4 ← specAnyVenueKeys m old
  let k5 ← specDriftKeys m old
  some (LinExpr.add
    (LinExpr.add
      (LinExpr.add
        (LinExpr.add (LinExpr.smul 5 (nameSumA (prefVenueKeys slots talks)))
          (LinExpr.smul 10 (nameSumA (prefSlotKeys venues talks))))
        (LinExpr.smul 10 (nameSumA k3)))
      (LinExpr.smul 5 (nameSumA k4)))
    (LinExpr.smul 1 (nameSumA k5)))

/-- The spacing value in effect after processing a list of events, starting
from the `schedule` argument: each event with a `"spacing_slots"` field
overwrites it. -/
def runSpacing (s0 : Int) (events : List Event) : Int :=
  events.foldl (fun s e => e.spacing_slots.getD s) s0

/-- The `Talk` that the `schedule` loop builds for one event, given the
spacing value in effect for that event. -/
def mkTalkOf (event_start : Int) (e : Event) (sp : Int) : Talk :=
  ⟨e.id, e.duration.tdiv 10 + sp, e.valid_venues, e.speakers, e.preferred_venues,
    e.time_ranges.flatMap (fun r => calculate_slots event_start r.start r.stop sp),
    e.preferred_time_ranges.flatMap (fun r => calculate_slots event_start r.start r.stop sp)⟩

/-- All slots contributed to `slots_available` by a list of events (with the
running spacing value). -/
def collectSlots (event_start : Int) : List Event → Int → List Int
  | [], _ => []
  | e :: es, s0 =>
    let sp := e.spacing_slots.getD s0
    (e.time_ranges.flatMap fun r => calculate_slots event_start r.start r.stop sp) ++
      collectSlots event_start es sp

/-- The variable freshly created by `start_var` on a cache miss (the
`pulp.LpVariable` call selected by the `contiguous` test). -/
def startFreshVar (sm : SM) (s tid v : Int) (tk : Talk) : LpVar :=
  if (List.range tk.duration.toNat).all (fun off => decide ((s + Int.ofNat off) ∈ sm.slots_available))
  then ⟨sm.next, nameB s tid v, VKind.binary⟩
  else ⟨sm.next, nameB s tid v, VKind.fixedZero⟩

/-- The variable freshly created by `active` on a cache miss (the
`pulp.LpVariable` call selected by the allowed-slots/venues test). -/
def activeFreshVar (sm : SM) (s tid v : Int) (tk : Talk) : LpVar :=
  if s ∈ tk.allowed_slots ∧ v ∈ tk.venues then ⟨sm.next, nameA s tid v, VKind.binary⟩
  else ⟨sm.next, nameA s tid v, VKind.fixedZero⟩

/-! ## Concrete fixtures for witnesses and counterexamples -/

/-- A one-slot talk used by the concrete witnesses. -/
def wTalk : Talk := ⟨1, 1, [101], ["S"], [101], [0], [0]⟩

/-- A talk with non-positive duration (malformed per the spec). -/
def wBadTalk : Talk := ⟨1, 0, [101], ["S"], [], [0], []⟩

/-- A `SlotMachine` with a single available slot. -/
def wSM : SM := { SM.init with slots_available := [0] }

/-- A solver assignment placing `wTalk` at slot 0 in venue 101. -/
def wRho : String → Int := fun n => if n = nameB 0 1 101 ∨ n = nameA 0 1 101 then 1 else 0

/-- A solver assignment starting `wBadTalk` at slot 0 in venue 101. -/
def wRhoBad : String → Int := fun n => if n = nameB 0 1 101 then 1 else 0

/-- A `SlotMachine` with one available slot and `wTalk` registered in
`talks_by_id` (as after the assignment at the top of `get_problem`). -/
def wSMT : SM := { SM.init with slots_available := [0], talks_by_id := [(1, wTalk)] }

/-- Event with a `"spacing_slots": 3` override. -/
def wEvOverride : Event := ⟨1, [⟨0, 1800⟩], [], [101], [], ["S1"], 30, some 3, none, none⟩

/-- Event with no `"spacing_slots"` field. -/
def wEvPlain : Event := ⟨2, [⟨0, 1800⟩], [], [101], [], ["S2"], 30, none, none, none⟩

/-! ## Basic lemmas -/

theorem lookup_mem {α β : Type} [BEq α] [LawfulBEq α] {l : List (α × β)} {a : α} {b : β}
    (h : l.lookup a = some b) : (a, b) ∈ l := by
  induction l with
  | nil => simp [List.lookup] at h
  | cons p rest ih =>
    rw [List.lookup] at h
    by_cases hab : a == p.1
    · simp only [hab] at h
      have ha : a = p.1 := eq_of_beq hab
      cases h
      subst ha
      cases p
      exact List.mem_cons_self _ _
    · simp only [hab] at h
      right
      exact ih h

theorem lookup_isSome_of_mem_keys {α β : Type} [BEq α] [LawfulBEq α] {l : List (α × β)} {a : α}
    (h : a ∈ l.map Prod.fst) : (l.lookup a).isSome := by
  induction l with
  | nil => simp at h
  | cons p rest ih =>
    rw [List.lookup]
    by_cases hab : a == p.1
    · simp [hab]
    · simp only [hab]
      apply ih
      simp only [List.map_cons, List.mem_cons] at h
      rcases h with h | h
      · exact absurd (beq_iff_eq.mpr h) (by simpa using hab)
      · exact h

theorem mem_keys_of_lookup {α β : Type} [BEq α] [LawfulBEq α] {l : List (α × β)} {a : α} {b : β}
    (h : l.lookup a = some b) : a ∈ l.map Prod.fst := by
  have := lookup_mem h
  exact List.mem_map.mpr ⟨(a, b), this, rfl⟩

theorem stepsTo_rfl (sm : SM) : StepsTo sm sm :=
  ⟨rfl, rfl, fun _ h => h, fun _ h => h⟩

theorem stepsTo_trans {a b c : SM} (h1 : StepsTo a b) (h2 : StepsTo b c) : StepsTo a c :=
  ⟨h2.1.trans h1.1, h2.2.1.trans h1.2.1,
    fun n hn => h2.2.2.1 n (h1.2.2.1 n hn), fun x hx => h2.2.2.2 x (h1.2.2.2 x hx)⟩

theorem pyRangeUp_length (a b : Int) : (pyRangeUp a b).length = (b - a).toNat := by
  unfold pyRangeUp
  rw [List.length_map, List.length_range]

theorem pyRangeUp_getElem (a b : Int) (i : Nat) (h : i < (pyRangeUp a b).length) :
    (pyRangeUp a b)[i] = a + Int.ofNat i := by
  simp only [pyRangeUp, List.getElem_map, List.getElem_range]

theorem pyRangeDown_length (a b : Int) : (pyRangeDown a b).length = (a - b).toNat := by
  unfold pyRangeDown
  rw [List.length_map, List.length_range]

theorem pyRangeDown_getElem (a b : Int) (i : Nat) (h : i < (pyRangeDown a b).length) :
    (pyRangeDown a b)[i] = a - Int.ofNat i := by
  simp only [pyRangeDown, List.getElem_map, List.getElem_range]

theorem pyRangeUp_mem (a b x : Int) : x ∈ pyRangeUp a b ↔ a ≤ x ∧ x < b := by
  unfold pyRangeUp
  simp only [List.mem_map, List.mem_range]
  constructor
  · rintro ⟨i, hi, rfl⟩
    simp only [Int.ofNat_eq_natCast]
    omega
  · intro ⟨h1, h2⟩
    refine ⟨(x - a).toNat, by omega, ?_⟩
    simp only [Int.ofNat_eq_natCast]
    omega

theorem pyRangeDown_eq (a b : Int) : pyRangeDown a b = (pyRangeUp (b + 1) (a + 1)).reverse := by
  apply List.ext_getElem
  · rw [pyRangeDown_length, List.length_reverse, pyRangeUp_length]
    omega
  · intro i h1 h2
    rw [pyRangeDown_getElem _ _ _ h1, List.getElem_reverse, pyRangeUp_getElem]
    have hl1 : i < (a - b).toNat := by rwa [pyRangeDown_length] at h1
    have hl2 : (pyRangeUp (b + 1) (a + 1)).length = (a - b).toNat := by
      rw [pyRangeUp_length]; omega
    rw [hl2]
    simp only [Int.ofNat_eq_natCast]
    omega

theorem contiguous_iff (d : Int) (s : Int) (avail : List Int) :
    (((List.range d.toNat).all fun off => decide ((s + Int.ofNat off) ∈ avail)) = true) ↔
      ∀ o : Int, 0 ≤ o → o < d → s + o ∈ avail := by
  rw [List.all_eq_true]
  constructor
  · intro h o ho hod
    have hm : o.toNat ∈ List.range d.toNat := by rw [List.mem_range]; omega
    have := h o.toNat hm
    rw [decide_eq_true_iff] at this
    have ho' : Int.ofNat o.toNat = o := by simp only [Int.ofNat_eq_natCast]; omega
    rwa [ho'] at this
  · intro h off hoff
    rw [List.mem_range] at hoff
    rw [decide_eq_true_iff]
    exact h off (by omega) (by omega)

/-! ## `start_var` lemmas -/

theorem start_var_cached {sm : SM} {s tid v : Int} {var : LpVar}
    (h : sm.var_cache.lookup (nameB s tid v) = some var) :
    start_var sm s tid v = some (var, sm) := by
  simp only [start_var, h]

theorem start_var_fresh {sm : SM} {s tid v : Int} {tk : Talk}
    (hc : sm.var_cache.lookup (nameB s tid v) = none)
    (ht : sm.talks_by_id.lookup tid = some tk) :
    start_var sm s tid v = some (startFreshVar sm s tid v tk,
      { sm with var_cache := (nameB s tid v, startFreshVar sm s tid v tk) :: sm.var_cache,
                next := sm.next + 1 }) := by
  simp only [start_var, hc, ht, Option.some_bind, startFreshVar]
  rfl

theorem startFreshVar_name (sm : SM) (s tid v : Int) (tk : Talk) :
    (startFreshVar sm s tid v tk).name = nameB s tid v := by
  unfold startFreshVar
  split <;> rfl

theorem start_var_spec {sm : SM} (s tid v : Int) {tk : Talk} (hWF : WFcache sm)
    (ht : sm.talks_by_id.lookup tid = some tk) :
    ∃ var sm', start_var sm s tid v = some (var, sm') ∧ var.name = nameB s tid v ∧
      StepsTo sm sm' ∧ WFcache sm' ∧ sm'.constraints = sm.constraints ∧
      sm'.objective = sm.objective ∧ nameB s tid v ∈ cacheKeys sm' := by
  cases hc : sm.var_cache.lookup (nameB s tid v) with
  | some var =>
    refine ⟨var, sm, start_var_cached hc, ?_, stepsTo_rfl sm, hWF, rfl, rfl, ?_⟩
    · exact hWF _ (lookup_mem hc)
    · exact mem_keys_of_lookup hc
  | none =>
    refine ⟨startFreshVar sm s tid v tk,
      { sm with var_cache := (nameB s tid v, startFreshVar sm s tid v tk) :: sm.var_cache,
                next := sm.next + 1 },
      start_var_fresh hc ht, startFreshVar_name sm s tid v tk, ?_, ?_, rfl, rfl, ?_⟩
    · refine ⟨rfl, rfl, ?_, fun c hcc => hcc⟩
      intro n hn
      simp only [cacheKeys, List.map_cons]
      exact List.mem_cons_of_mem _ hn
    · intro p hp
      rcases List.mem_cons.mp hp with h | h
      · subst h
        exact startFreshVar_name sm s tid v tk
      · exact hWF p h
    · simp only [cacheKeys, List.map_cons]
      exact List.mem_cons_self _ _

theorem sumVars_names (vars : List LpVar) :
    LinExpr.sumVars vars = ⟨(vars.map LpVar.name).map fun n => ((1 : Int), n), 0⟩ := by
  unfold LinExpr.sumVars
  rw [List.map_map]
  rfl

theorem callStarts_spec (keys : List (Int × Int × Int)) (sm : SM) (hWF : WFcache sm)
    (ht : ∀ k ∈ keys, ∃ tk, sm.talks_by_id.lookup k.2.1 = some tk) :
    ∃ vars sm', callStarts keys sm = some (vars, sm') ∧
      vars.map LpVar.name = keys.map (fun k => nameB k.1 k.2.1 k.2.2) ∧
      StepsTo sm sm' ∧ WFcache sm' ∧ sm'.constraints = sm.constraints ∧
      sm'.objective = sm.objective ∧
      ∀ k ∈ keys, nameB k.1 k.2.1 k.2.2 ∈ cacheKeys sm' := by
  induction keys generalizing sm with
  | nil => exact ⟨[], sm, rfl, rfl, stepsTo_rfl sm, hWF, rfl, rfl, by simp⟩
  | cons k ks ih =>
    obtain ⟨tk, htk⟩ := ht k (List.mem_cons_self _ _)
    obtain ⟨var, sm1, he, hname, hst, hWF1, hcons, hobj, hmem⟩ :=
      start_var_spec k.1 k.2.1 k.2.2 hWF htk
    have ht' : ∀ k' ∈ ks, ∃ tk', sm1.talks_by_id.lookup k'.2.1 = some tk' := by
      intro k' hk'
      obtain ⟨tk', h'⟩ := ht k' (List.mem_cons_of_mem _ hk')
      exact ⟨tk', by rw [hst.1]; exact h'⟩
    obtain ⟨vars, sm2, he2, hnames2, hst2, hWF2, hcons2, hobj2, hmem2⟩ := ih sm1 hWF1 ht'
    refine ⟨var :: vars, sm2, ?_, ?_, stepsTo_trans hst hst2, hWF2,
      by rw [hcons2, hcons], by rw [hobj2, hobj], ?_⟩
    · simp [callStarts, he, he2]
    · simp only [List.map_cons, hnames2, hname]
    · intro k' hk'
      rcases List.mem_cons.mp hk' with rfl | hk'
      · exact hst2.2.2.1 _ hmem
      · exact hmem2 k' hk'

/-! ## `active` lemmas -/

theorem active_cached {sm : SM} {s tid v : Int} {var : LpVar}
    (h : sm.var_cache.lookup (nameA s tid v) = some var) :
    active sm s tid v = some (var, sm) := by
  simp only [active, h]

theorem activeFreshVar_name (sm : SM) (s tid v : Int) (tk : Talk) :
    (activeFreshVar sm s tid v tk).name = nameA s tid v := by
  unfold activeFreshVar
  split <;> rfl

theorem active_fresh {sm : SM} {s tid v : Int} {tk : Talk}
    (hc : sm.var_cache.lookup (nameA s tid v) = none)
    (ht : sm.talks_by_id.lookup tid = some tk)
    {startVars : List LpVar} {sm2 : SM}
    (hcs : callStarts ((pyRangeDown s (max (-1) (s - tk.duration))).map fun s' => (s', tid, v))
      { sm with next := sm.next + 1 } = some (startVars, sm2)) :
    active sm s tid v = some (activeFreshVar sm s tid v tk,
      { sm2 with
        constraints := sm2.constraints ++
          [Constr.ceq (LinExpr.ofVar (activeFreshVar sm s tid v tk)) (LinExpr.sumVars startVars)]
        var_cache := (nameA s tid v, activeFreshVar sm s tid v tk) :: sm2.var_cache }) := by
  simp only [active, hc, ht, Option.bind_eq_bind, Option.some_bind]
  rw [hcs]
  rfl

theorem active_spec {sm : SM} (s tid v : Int) {tk : Talk} (hWF : WFcache sm)
    (ht : sm.talks_by_id.lookup tid = some tk) :
    ∃ var sm', active sm s tid v = some (var, sm') ∧ var.name = nameA s tid v ∧
      StepsTo sm sm' ∧ WFcache sm' ∧ sm'.objective = sm.objective ∧
      nameA s tid v ∈ cacheKeys sm' := by
  cases hc : sm.var_cache.lookup (nameA s tid v) with
  | some var =>
    exact ⟨var, sm, active_cached hc, hWF _ (lookup_mem hc), stepsTo_rfl sm, hWF, rfl,
      mem_keys_of_lookup hc⟩
  | none =>
    have hWF1 : WFcache { sm with next := sm.next + 1 } := hWF
    have ht1 : ∀ k ∈ (pyRangeDown s (max (-1) (s - tk.duration))).map (fun s' => (s', tid, v)),
        ∃ tk', ({ sm with next := sm.next + 1 } : SM).talks_by_id.lookup k.2.1 = some tk' := by
      intro k hk
      obtain ⟨s', _, rfl⟩ := List.mem_map.mp hk
      exact ⟨tk, ht⟩
    obtain ⟨vars, sm2, hcs, hnames, hst, hWF2, hcons2, hobj2, hmem⟩ :=
      callStarts_spec _ { sm with next := sm.next + 1 } hWF1 ht1
    refine ⟨activeFreshVar sm s tid v tk,
      { sm2 with
        constraints := sm2.constraints ++
          [Constr.ceq (LinExpr.ofVar (activeFreshVar sm s tid v tk)) (LinExpr.sumVars vars)]
        var_cache := (nameA s tid v, activeFreshVar sm s tid v tk) :: sm2.var_cache },
      active_fresh hc ht hcs, activeFreshVar_name sm s tid v tk, ?_, ?_, ?_, ?_⟩
    · refine ⟨hst.1, hst.2.1, ?_, ?_⟩
      · intro n hn
        simp only [cacheKeys, List.map_cons]
        exact List.mem_cons_of_mem _ (hst.2.2.1 n hn)
      · intro c hcc
        rw [hcons2]
        exact List.mem_append_left _ hcc
    · intro p hp
      rcases List.mem_cons.mp hp with h | h
      · subst h
        exact activeFreshVar_name sm s tid v tk
      · exact hWF2 p h
    · exact hobj2
    · simp only [cacheKeys, List.map_cons]
      exact List.mem_cons_self _ _

theorem callActives_spec (keys : List (Int × Int × Int)) (sm : SM) (hWF : WFcache sm)
    (ht : ∀ k ∈ keys, ∃ tk, sm.talks_by_id.lookup k.2.1 = some tk) :
    ∃ vars sm', callActives keys sm = some (vars, sm') ∧
      vars.map LpVar.name = keys.map (fun k => nameA k.1 k.2.1 k.2.2) ∧
      StepsTo sm sm' ∧ WFcache sm' ∧ sm'.objective = sm.objective ∧
      ∀ k ∈ keys, nameA k.1 k.2.1 k.2.2 ∈ cacheKeys sm' := by
  induction keys generalizing sm with
  | nil => exact ⟨[], sm, rfl, rfl, stepsTo_rfl sm, hWF, rfl, by simp⟩
  | cons k ks ih =>
    obtain ⟨tk, htk⟩ := ht k (List.mem_cons_self _ _)
    obtain ⟨var, sm1, he, hname, hst, hWF1, hobj, hmem⟩ := active_spec k.1 k.2.1 k.2.2 hWF htk
    have ht' : ∀ k' ∈ ks, ∃ tk', sm1.talks_by_id.lookup k'.2.1 = some tk' := by
      intro k' hk'
      obtain ⟨tk', h'⟩ := ht k' (List.mem_cons_of_mem _ hk')
      exact ⟨tk', by rw [hst.1]; exact h'⟩
    obtain ⟨vars, sm2, he2, hnames2, hst2, hWF2, hobj2, hmem2⟩ := ih sm1 hWF1 ht'
    refine ⟨var :: vars, sm2, ?_, ?_, stepsTo_trans hst hst2, hWF2,
      by rw [hobj2, hobj], ?_⟩
    · simp [callActives, he, he2]
    · simp only [List.map_cons, hnames2, hname]
    · intro k' hk'
      rcases List.mem_cons.mp hk' with rfl | hk'
      · exact hst2.2.2.1 _ hmem
      · exact hmem2 k' hk'

/-! ## Claims C1 and C2 -/

/-- C2: `start_var(s, t, v)` (on a cache miss, with the talk present in
`talks_by_id`) returns a variable forced to the constant 0 (bounds `0..0`)
iff some offset `o` with `0 ≤ o <` duration has `s + o` outside the global
`slots_available`; when all slots `s .. s+duration-1` are available it
returns a free binary variable. -/
theorem start_var_forced_zero_iff (sm : SM) (s tid v : Int) (tk : Talk)
    (hc : sm.var_cache.lookup (nameB s tid v) = none)
    (ht : sm.talks_by_id.lookup tid = some tk) :
    ∃ var sm', start_var sm s tid v = some (var, sm') ∧
      (var.kind = VKind.fixedZero ↔
        ∃ o : Int, 0 ≤ o ∧ o < tk.duration ∧ s + o ∉ sm.slots_available) ∧
      (var.kind = VKind.binary ↔
        ∀ o : Int, 0 ≤ o → o < tk.duration → s + o ∈ sm.slots_available) := by
  refine ⟨startFreshVar sm s tid v tk, _, start_var_fresh hc ht, ?_, ?_⟩
  · by_cases hcont : ((List.range tk.duration.toNat).all
        fun off => decide ((s + Int.ofNat off) ∈ sm.slots_available)) = true
    · rw [startFreshVar, if_pos hcont]
      constructor
      · intro h
        exact absurd h (by simp)
      · rintro ⟨o, ho1, ho2, ho3⟩
        exact absurd ((contiguous_iff _ _ _).mp hcont o ho1 ho2) ho3
    · rw [startFreshVar, if_neg hcont]
      constructor
      · intro _
        by_contra hno
        push_neg at hno
        exact hcont ((contiguous_iff _ _ _).mpr fun o h1 h2 => hno o h1 h2)
      · intro _
        rfl
  · by_cases hcont : ((List.range tk.duration.toNat).all
        fun off => decide ((s + Int.ofNat off) ∈ sm.slots_available)) = true
    · rw [startFreshVar, if_pos hcont]
      exact ⟨fun _ => (contiguous_iff _ _ _).mp hcont, fun _ => rfl⟩
    · rw [startFreshVar, if_neg hcont]
      constructor
      · intro h
        exact absurd h (by simp)
      · intro hall
        exact absurd ((contiguous_iff _ _ _).mpr hall) hcont

/-- Witness for C2: with one available slot `0` and a duration-1 talk, the
start variable at slot 0 is a free binary (and not forced to 0). -/
theorem start_var_forced_zero_iff_witness :
    ∃ var sm', start_var wSMT 0 1 101 = some (var, sm') ∧
      (var.kind = VKind.fixedZero ↔
        ∃ o : Int, 0 ≤ o ∧ o < wTalk.duration ∧ (0 : Int) + o ∉ wSMT.slots_available) ∧
      (var.kind = VKind.binary ↔
        ∀ o : Int, 0 ≤ o → o < wTalk.duration → (0 : Int) + o ∈ wSMT.slots_available) :=
  start_var_forced_zero_iff wSMT 0 1 101 wTalk (by rfl) (by rfl)

/-- C1: a fresh `active(s, t, v)` call (talk present in `talks_by_id`)
creates the variable `A_s_t_v`, tied by an equality constraint added to the
problem to the sum of the start variables `B_s'_t_v` for `s'` ranging over
`max(0, s - duration + 1) .. s` (the code iterates this window backward);
the variable is a free binary iff `s` is in the talk's allowed slots and `v`
in its venues, and otherwise is forced to the constant 0. -/
theorem active_fresh_definition (sm : SM) (s tid v : Int) (tk : Talk) (hWF : WFcache sm)
    (hc : sm.var_cache.lookup (nameA s tid v) = none)
    (ht : sm.talks_by_id.lookup tid = some tk) :
    ∃ var sm', active sm s tid v = some (var, sm') ∧ var.name = nameA s tid v ∧
      (var.kind = if s ∈ tk.allowed_slots ∧ v ∈ tk.venues then VKind.binary
        else VKind.fixedZero) ∧
      sm'.var_cache.lookup (nameA s tid v) = some var ∧
      sm'.constraints = sm.constraints ++
        [Constr.ceq (LinExpr.ofVar var)
          ⟨((pyRangeUp (max 0 (s - tk.duration + 1)) (s + 1)).reverse).map
              (fun s' => (1, nameB s' tid v)), 0⟩] := by
  have hWF1 : WFcache { sm with next := sm.next + 1 } := hWF
  have ht1 : ∀ k ∈ (pyRangeDown s (max (-1) (s - tk.duration))).map (fun s' => (s', tid, v)),
      ∃ tk', ({ sm with next := sm.next + 1 } : SM).talks_by_id.lookup k.2.1 = some tk' := by
    intro k hk
    obtain ⟨s', _, rfl⟩ := List.mem_map.mp hk
    exact ⟨tk, ht⟩
  obtain ⟨vars, sm2, hcs, hnames, hst, hWF2, hcons2, hobj2, hmem⟩ :=
    callStarts_spec _ { sm with next := sm.next + 1 } hWF1 ht1
  refine ⟨activeFreshVar sm s tid v tk,
    { sm2 with
      constraints := sm2.constraints ++
        [Constr.ceq (LinExpr.ofVar (activeFreshVar sm s tid v tk)) (LinExpr.sumVars vars)]
      var_cache := (nameA s tid v, activeFreshVar sm s tid v tk) :: sm2.var_cache },
    active_fresh hc ht hcs, activeFreshVar_name sm s tid v tk, ?_, ?_, ?_⟩
  · unfold activeFreshVar
    split <;> rfl
  · simp [List.lookup]
  · have h2 : max (-1) (s - tk.duration) + 1 = max 0 (s - tk.duration + 1) := by omega
    have h4 : LinExpr.sumVars vars =
        ⟨((pyRangeUp (max 0 (s - tk.duration + 1)) (s + 1)).reverse).map
            (fun s' => (1, nameB s' tid v)), 0⟩ := by
      rw [sumVars_names, hnames, List.map_map, List.map_map, ← h2, ← pyRangeDown_eq]
      rfl
    rw [show ({ sm2 with
        constraints := sm2.constraints ++
          [Constr.ceq (LinExpr.ofVar (activeFreshVar sm s tid v tk)) (LinExpr.sumVars vars)]
        var_cache := (nameA s tid v, activeFreshVar sm s tid v tk) :: sm2.var_cache } : SM).constraints =
      sm2.constraints ++
        [Constr.ceq (LinExpr.ofVar (activeFreshVar sm s tid v tk)) (LinExpr.sumVars vars)] from rfl,
      hcons2, h4]

/-- Witness for C1: a fresh `active` call on a concrete state. -/
theorem active_fresh_definition_witness :
    ∃ var sm', active wSMT 0 1 101 = some (var, sm') ∧ var.name = nameA 0 1 101 ∧
      (var.kind = if (0 : Int) ∈ wTalk.allowed_slots ∧ (101 : Int) ∈ wTalk.venues
        then VKind.binary else VKind.fixedZero) ∧
      sm'.var_cache.lookup (nameA 0 1 101) = some var ∧
      sm'.constraints = wSMT.constraints ++
        [Constr.ceq (LinExpr.ofVar var)
          ⟨((pyRangeUp (max 0 (0 - wTalk.duration + 1)) (0 + 1)).reverse).map
              (fun s' => (1, nameB s' 1 101)), 0⟩] :=
  active_fresh_definition wSMT 0 1 101 wTalk
    (fun p hp => absurd hp (List.not_mem_nil p)) rfl rfl

/-! ## Claim C7: variable-cache deduplication and per-build reset -/

/-- C7: within one model build, a second `start_var` or `active` call with the
identical key returns the identical variable object and leaves the state
unchanged (in particular the defining equality constraint of an active
variable is added only at its first creation); and `get_problem` depends on
the incoming state only through `slots_available` — the previous problem,
variable cache and talk table are discarded, so nothing from a previous call
reaches the new model. -/
theorem var_cache_dedup_and_reset :
    (∀ (sm : SM) (s t v : Int) (var : LpVar) (sm1 : SM),
      start_var sm s t v = some (var, sm1) → start_var sm1 s t v = some (var, sm1)) ∧
    (∀ (sm : SM) (s t v : Int) (var : LpVar) (sm1 : SM),
      active sm s t v = some (var, sm1) → active sm1 s t v = some (var, sm1)) ∧
    (∀ (sm1 sm2 : SM) (venues : List Int) (talks : List Talk) (old : List (Int × Int × Int)),
      sm1.slots_available = sm2.slots_available →
      get_problem sm1 venues talks old = get_problem sm2 venues talks old) := by
  refine ⟨?_, ?_, ?_⟩
  · intro sm s t v var sm1 h
    cases hc : sm.var_cache.lookup (nameB s t v) with
    | some cv =>
      rw [start_var_cached hc] at h
      injection h with h2
      injection h2 with h3 h4
      subst h3
      subst h4
      exact start_var_cached hc
    | none =>
      cases htid : sm.talks_by_id.lookup t with
      | none => simp [start_var, hc, htid] at h
      | some tk =>
        rw [start_var_fresh hc htid] at h
        injection h with h2
        injection h2 with h3 h4
        subst h3
        subst h4
        apply start_var_cached
        simp [List.lookup]
  · intro sm s t v var sm1 h
    cases hc : sm.var_cache.lookup (nameA s t v) with
    | some cv =>
      rw [active_cached hc] at h
      injection h with h2
      injection h2 with h3 h4
      subst h3
      subst h4
      exact active_cached hc
    | none =>
      cases htid : sm.talks_by_id.lookup t with
      | none => simp [active, hc, htid] at h
      | some tk =>
        cases hcs : callStarts
            ((pyRangeDown s (max (-1) (s - tk.duration))).map fun s' => (s', t, v))
            { sm with next := sm.next + 1 } with
        | none =>
          rw [active] at h
          simp only [hc, htid, Option.bind_eq_bind, Option.some_bind] at h
          rw [hcs] at h
          simp at h
        | some res =>
          have hcs' : callStarts
              ((pyRangeDown s (max (-1) (s - tk.duration))).map fun s' => (s', t, v))
              { sm with next := sm.next + 1 } = some (res.1, res.2) := by rw [hcs]
          rw [active_fresh hc htid hcs'] at h
          injection h with h2
          injection h2 with h3 h4
          subst h3
          subst h4
          apply active_cached
          simp [List.lookup]
  · intro sm1 sm2 venues talks old hs
    have h0 : ({ sm1 with constraints := [], objective := LinExpr.cst 0, var_cache := [], talks_by_id := talksMap talks, next := 0 } : SM) =
        { sm2 with constraints := [], objective := LinExpr.cst 0, var_cache := [], talks_by_id := talksMap talks, next := 0 } := by
      cases sm1
      cases sm2
      simp_all
    simp only [get_problem, h0, hs]

/-- Witness for C7: concrete double calls and a concrete cache reset. -/
theorem var_cache_dedup_and_reset_witness :
    start_var ((start_var wSMT 0 1 101).getD (⟨0, "", VKind.binary⟩, wSMT)).2 0 1 101 =
      some ((start_var wSMT 0 1 101).getD (⟨0, "", VKind.binary⟩, wSMT)) ∧
    active ((active wSMT 0 1 101).getD (⟨0, "", VKind.binary⟩, wSMT)).2 0 1 101 =
      some ((active wSMT 0 1 101).getD (⟨0, "", VKind.binary⟩, wSMT)) ∧
    get_problem { wSM with var_cache := [("stale", ⟨7, "stale", VKind.fixedZero⟩)] }
        [101] [wTalk] [] =
      get_problem wSM [101] [wTalk] [] :=
  ⟨var_cache_dedup_and_reset.1 wSMT 0 1 101 _ _ rfl,
   var_cache_dedup_and_reset.2.1 wSMT 0 1 101 _ _ rfl,
   var_cache_dedup_and_reset.2.2 _ wSM [101] [wTalk] [] rfl⟩

/-! ## Claim C6: slot-grid arithmetic -/

/-- C6: for a range starting at or after the epoch, `calculate_slots` with the
default spacing (1) returns exactly the consecutive integers
`range(s0, s0 + num_slots(range_start, range_end) + 1)` where
`s0 = ⌊(range_start − epoch) / 600 s⌋` (10-minute units). -/
theorem calculate_slots_spec (epoch rs re : Int) (h : epoch ≤ rs) :
    calculate_slots epoch rs re 1 =
      pyRangeUp ((rs - epoch) / 600) ((rs - epoch) / 600 + num_slots rs re + 1) := by
  unfold calculate_slots
  rw [Int.tdiv_eq_ediv (by omega) (by omega)]

/-- Witness for C6: the values of the unit test `test_calculate_slots`
(epoch 2016-08-05 13:00, range 2016-08-06 13:00 .. 16:00, in seconds). -/
theorem calculate_slots_spec_witness :
    calculate_slots 0 86400 97200 1 =
      pyRangeUp ((86400 - 0) / 600) ((86400 - 0) / 600 + num_slots 86400 97200 + 1) :=
  calculate_slots_spec 0 86400 97200 (by decide)

/-! ## Totality and key lemmas for the objective terms -/

theorem talksMap_lookup (talks : List Talk) (t : Talk) (h : t ∈ talks) :
    ∃ tk, (talksMap talks).lookup t.id = some tk := by
  have hk : t.id ∈ (talksMap talks).map Prod.fst := by
    unfold talksMap
    rw [List.map_reverse, List.map_map]
    rw [List.mem_reverse]
    exact List.mem_map.mpr ⟨t, h, rfl⟩
  exact Option.isSome_iff_exists.mp (lookup_isSome_of_mem_keys hk)

theorem oldSameVenueKeys_total (m : List (Int × Talk)) (old : List (Int × Int × Int))
    (h : ∀ k ∈ old, ∃ tk, m.lookup k.2.1 = some tk) :
    ∃ ks, oldSameVenueKeys m old = some ks ∧
      ∀ kk ∈ ks, ∃ tk, m.lookup kk.2.1 = some tk := by
  induction old with
  | nil => exact ⟨[], rfl, by simp⟩
  | cons k rest ih =>
    obtain ⟨tk, htk⟩ := h k (List.mem_cons_self _ _)
    obtain ⟨ks, hks, hmem⟩ := ih fun k' hk' => h k' (List.mem_cons_of_mem _ hk')
    refine ⟨(pyRangeUp k.1 (k.1 + tk.duration)).map (fun s => (s, k.2.1, k.2.2)) ++ ks, ?_, ?_⟩
    · simp only [oldSameVenueKeys, htk, hks, Option.bind_eq_bind, Option.some_bind]
    intro kk hkk
    rcases List.mem_append.mp hkk with hl | hr
    · obtain ⟨s, _, rfl⟩ := List.mem_map.mp hl
      exact ⟨tk, htk⟩
    · exact hmem kk hr

theorem oldAnyVenueKeys_total (m : List (Int × Talk)) (old : List (Int × Int × Int))
    (h : ∀ k ∈ old, ∃ tk, m.lookup k.2.1 = some tk) :
    ∃ ks, oldAnyVenueKeys m old = some ks ∧
      ∀ kk ∈ ks, ∃ tk, m.lookup kk.2.1 = some tk := by
  induction old with
  | nil => exact ⟨[], rfl, by simp⟩
  | cons k rest ih =>
    obtain ⟨tk, htk⟩ := h k (List.mem_cons_self _ _)
    obtain ⟨ks, hks, hmem⟩ := ih fun k' hk' => h k' (List.mem_cons_of_mem _ hk')
    refine ⟨(pyRangeUp k.1 (k.1 + tk.duration)).flatMap (fun s => tk.venues.map fun v => (s, k.2.1, v)) ++ ks, ?_, ?_⟩
    · simp only [oldAnyVenueKeys, htk, hks, Option.bind_eq_bind, Option.some_bind]
    intro kk hkk
    rcases List.mem_append.mp hkk with hl | hr
    · obtain ⟨s, _, hsv⟩ := List.mem_flatMap.mp hl
      obtain ⟨v, _, rfl⟩ := List.mem_map.mp hsv
      exact ⟨tk, htk⟩
    · exact hmem kk hr

theorem oldDriftKeys_total (m : List (Int × Talk)) (old : List (Int × Int × Int))
    (h : ∀ k ∈ old, ∃ tk, m.lookup k.2.1 = some tk) :
    ∃ ks, oldDriftKeys m old = some ks ∧
      ∀ kk ∈ ks, ∃ tk, m.lookup kk.2.1 = some tk := by
  induction old with
  | nil => exact ⟨[], rfl, by simp⟩
  | cons k rest ih =>
    obtain ⟨tk, htk⟩ := h k (List.mem_cons_self _ _)
    obtain ⟨ks, hks, hmem⟩ := ih fun k' hk' => h k' (List.mem_cons_of_mem _ hk')
    refine ⟨(pyRangeUp (k.1 - 6) (k.1 + tk.duration + 6)).flatMap (fun s => tk.venues.map fun v => (s, k.2.1, v)) ++ ks, ?_, ?_⟩
    · simp only [oldDriftKeys, htk, hks, Option.bind_eq_bind, Option.some_bind]
    intro kk hkk
    rcases List.mem_append.mp hkk with hl | hr
    · obtain ⟨s, _, hsv⟩ := List.mem_flatMap.mp hl
      obtain ⟨v, _, rfl⟩ := List.mem_map.mp hsv
      exact ⟨tk, htk⟩
    · exact hmem kk hr

theorem sumVars_eq_nameSumA (vars : List LpVar) (ks : List (Int × Int × Int))
    (h : vars.map LpVar.name = ks.map (fun k => nameA k.1 k.2.1 k.2.2)) :
    LinExpr.sumVars vars = nameSumA ks := by
  rw [sumVars_names, h, List.map_map]
  rfl

/-! ## Phase lemmas for `get_problem` -/

theorem phase1_spec (venues slots : List Int) (talks : List Talk) (sm : SM) (hWF : WFcache sm)
    (hs : sm.slots_available = slots)
    (ht : ∀ t ∈ talks, ∃ tk, sm.talks_by_id.lookup t.id = some tk) :
    ∃ sm', phase1 venues talks sm = some sm' ∧ StepsTo sm sm' ∧ WFcache sm' ∧
      sm'.objective = sm.objective ∧
      (∀ t ∈ talks, eqOneConstr venues slots t.id ∈ sm'.constraints) ∧
      (∀ t ∈ talks, ∀ k ∈ startKeys venues slots t.id,
        nameB k.1 k.2.1 k.2.2 ∈ cacheKeys sm') := by
  induction talks generalizing sm with
  | nil => exact ⟨sm, rfl, stepsTo_rfl sm, hWF, rfl, by simp, by simp⟩
  | cons t ts ih =>
    obtain ⟨tk, htk⟩ := ht t (List.mem_cons_self _ _)
    have hks : ∀ k ∈ startKeys venues sm.slots_available t.id,
        ∃ tk', sm.talks_by_id.lookup k.2.1 = some tk' := by
      intro k hk
      obtain ⟨v, _, hv⟩ := List.mem_flatMap.mp hk
      obtain ⟨s, _, rfl⟩ := List.mem_map.mp hv
      exact ⟨tk, htk⟩
    obtain ⟨vars, sm1, he, hnames, hst, hWF1, hcons, hobj, hmem⟩ :=
      callStarts_spec (startKeys venues sm.slots_available t.id) sm hWF hks
    have hce : Constr.ceq (LinExpr.sumVars vars) (LinExpr.cst 1) =
        eqOneConstr venues slots t.id := by
      rw [sumVars_names, hnames, ← hs]
      unfold eqOneConstr
      rw [List.map_map]
      rfl
    have hWF1' : WFcache (sm1.addConstraint (Constr.ceq (LinExpr.sumVars vars) (LinExpr.cst 1))) :=
      hWF1
    have hs1' : (sm1.addConstraint (Constr.ceq (LinExpr.sumVars vars) (LinExpr.cst 1))).slots_available
        = slots := by
      show sm1.slots_available = slots
      rw [hst.2.1, hs]
    have ht1' : ∀ t' ∈ ts,
        ∃ tk', (sm1.addConstraint (Constr.ceq (LinExpr.sumVars vars) (LinExpr.cst 1))).talks_by_id.lookup t'.id = some tk' := by
      intro t' ht'
      obtain ⟨tk', h'⟩ := ht t' (List.mem_cons_of_mem _ ht')
      refine ⟨tk', ?_⟩
      show sm1.talks_by_id.lookup t'.id = some tk'
      rw [hst.1]
      exact h'
    obtain ⟨sm2, he2, hst2, hWF2, hobj2, heq2, hmem2⟩ := ih _ hWF1' hs1' ht1'
    have hstep1 : StepsTo sm (sm1.addConstraint (Constr.ceq (LinExpr.sumVars vars) (LinExpr.cst 1))) := by
      refine stepsTo_trans hst ⟨rfl, rfl, fun n hn => hn, ?_⟩
      intro c hcc
      exact List.mem_append_left _ hcc
    refine ⟨sm2, ?_, stepsTo_trans hstep1 hst2, hWF2, ?_, ?_, ?_⟩
    · simp only [phase1, Option.bind_eq_bind]
      rw [he]
      simp only [Option.some_bind]
      exact he2
    · rw [hobj2]
      show sm1.objective = sm.objective
      exact hobj
    · intro t' ht'
      rcases List.mem_cons.mp ht' with rfl | ht'
      · rw [← hce]
        apply hst2.2.2.2
        show _ ∈ sm1.constraints ++ _
        exact List.mem_append_right _ (List.mem_cons_self _ _)
      · exact heq2 t' ht'
    · intro t' ht' k hk
      rcases List.mem_cons.mp ht' with rfl | ht'
      · apply hst2.2.2.1
        show _ ∈ cacheKeys sm1
        apply hmem
        rw [hs]
        exact hk
      · exact hmem2 t' ht' k hk

theorem phase2_spec (talks : List Talk) (pairs : List (Int × Int)) (sm : SM) (hWF : WFcache sm)
    (ht : ∀ t ∈ talks, ∃ tk, sm.talks_by_id.lookup t.id = some tk) :
    ∃ sm', phase2 talks pairs sm = some sm' ∧ StepsTo sm sm' ∧ WFcache sm' ∧
      sm'.objective = sm.objective := by
  induction pairs generalizing sm with
  | nil => exact ⟨sm, rfl, stepsTo_rfl sm, hWF, rfl⟩
  | cons p rest ih =>
    have hks : ∀ k ∈ talks.map (fun t => (p.2, t.id, p.1)),
        ∃ tk, sm.talks_by_id.lookup k.2.1 = some tk := by
      intro k hk
      obtain ⟨t, htmem, rfl⟩ := List.mem_map.mp hk
      exact ht t htmem
    obtain ⟨vars, sm1, he, hnames, hst, hWF1, hobj, hmem⟩ :=
      callActives_spec (talks.map fun t => (p.2, t.id, p.1)) sm hWF hks
    have ht1 : ∀ t ∈ talks,
        ∃ tk, (sm1.addConstraint (Constr.cle (LinExpr.sumVars vars) 1)).talks_by_id.lookup t.id = some tk := by
      intro t htmem
      obtain ⟨tk, h'⟩ := ht t htmem
      refine ⟨tk, ?_⟩
      show sm1.talks_by_id.lookup t.id = some tk
      rw [hst.1]
      exact h'
    obtain ⟨sm2, he2, hst2, hWF2, hobj2⟩ :=
      ih (sm1.addConstraint (Constr.cle (LinExpr.sumVars vars) 1)) hWF1 ht1
    have hstep1 : StepsTo sm (sm1.addConstraint (Constr.cle (LinExpr.sumVars vars) 1)) := by
      refine stepsTo_trans hst ⟨rfl, rfl, fun n hn => hn, ?_⟩
      intro c hcc
      exact List.mem_append_left _ hcc
    refine ⟨sm2, ?_, stepsTo_trans hstep1 hst2, hWF2, ?_⟩
    · simp only [phase2, Option.bind_eq_bind]
      rw [he]
      simp only [Option.some_bind]
      exact he2
    · rw [hobj2]
      show sm1.objective = sm.objective
      exact hobj

theorem phase3_spec (venues : List Int) (talks : List Talk) (old : List (Int × Int × Int))
    (sm : SM) (hWF : WFcache sm)
    (ht : ∀ t ∈ talks, ∃ tk, sm.talks_by_id.lookup t.id = some tk)
    (hold : ∀ k ∈ old, ∃ tk, sm.talks_by_id.lookup k.2.1 = some tk) :
    ∃ sm' k3 k4 k5, phase3 venues talks old sm = some sm' ∧
      oldSameVenueKeys sm.talks_by_id old = some k3 ∧
      oldAnyVenueKeys sm.talks_by_id old = some k4 ∧
      oldDriftKeys sm.talks_by_id old = some k5 ∧
      StepsTo sm sm' ∧ WFcache sm' ∧
      sm'.objective = objExpr sm.slots_available venues talks k3 k4 k5 := by
  have hk1 : ∀ k ∈ prefVenueKeys sm.slots_available talks,
      ∃ tk, sm.talks_by_id.lookup k.2.1 = some tk := by
    intro k hk
    obtain ⟨t, htm, hrest⟩ := List.mem_flatMap.mp hk
    obtain ⟨v, _, hsm⟩ := List.mem_flatMap.mp hrest
    obtain ⟨s, _, rfl⟩ := List.mem_map.mp hsm
    exact ht t htm
  obtain ⟨vs1, sm1, he1, hn1, hst1, hWF1, hobj1, _⟩ :=
    callActives_spec (prefVenueKeys sm.slots_available talks) sm hWF hk1
  have hk2 : ∀ k ∈ prefSlotKeys venues talks,
      ∃ tk, sm1.talks_by_id.lookup k.2.1 = some tk := by
    intro k hk
    obtain ⟨t, htm, hrest⟩ := List.mem_flatMap.mp hk
    obtain ⟨s, _, hvm⟩ := List.mem_flatMap.mp hrest
    obtain ⟨v, _, rfl⟩ := List.mem_map.mp hvm
    obtain ⟨tk, h'⟩ := ht t htm
    exact ⟨tk, by rw [hst1.1]; exact h'⟩
  obtain ⟨vs2, sm2, he2, hn2, hst2, hWF2, hobj2, _⟩ :=
    callActives_spec (prefSlotKeys venues talks) sm1 hWF1 hk2
  obtain ⟨k3, h3, h3m⟩ := oldSameVenueKeys_total sm.talks_by_id old hold
  have hk3 : ∀ k ∈ k3, ∃ tk, sm2.talks_by_id.lookup k.2.1 = some tk := by
    intro k hk
    obtain ⟨tk, h'⟩ := h3m k hk
    exact ⟨tk, by rw [hst2.1, hst1.1]; exact h'⟩
  obtain ⟨vs3, sm3, he3, hn3, hst3, hWF3, hobj3, _⟩ := callActives_spec k3 sm2 hWF2 hk3
  obtain ⟨k4, h4, h4m⟩ := oldAnyVenueKeys_total sm.talks_by_id old hold
  have hk4 : ∀ k ∈ k4, ∃ tk, sm3.talks_by_id.lookup k.2.1 = some tk := by
    intro k hk
    obtain ⟨tk, h'⟩ := h4m k hk
    exact ⟨tk, by rw [hst3.1, hst2.1, hst1.1]; exact h'⟩
  obtain ⟨vs4, sm4, he4, hn4, hst4, hWF4, hobj4, _⟩ := callActives_spec k4 sm3 hWF3 hk4
  obtain ⟨k5, h5, h5m⟩ := oldDriftKeys_total sm.talks_by_id old hold
  have hk5 : ∀ k ∈ k5, ∃ tk, sm4.talks_by_id.lookup k.2.1 = some tk := by
    intro k hk
    obtain ⟨tk, h'⟩ := h5m k hk
    exact ⟨tk, by rw [hst4.1, hst3.1, hst2.1, hst1.1]; exact h'⟩
  obtain ⟨vs5, sm5, he5, hn5, hst5, hWF5, hobj5, _⟩ := callActives_spec k5 sm4 hWF4 hk5
  refine ⟨{ sm5 with objective := LinExpr.add (LinExpr.add (LinExpr.add (LinExpr.add (LinExpr.smul 5 (LinExpr.sumVars vs1)) (LinExpr.smul 10 (LinExpr.sumVars vs2))) (LinExpr.smul 10 (LinExpr.sumVars vs3))) (LinExpr.smul 5 (LinExpr.sumVars vs4))) (LinExpr.smul 1 (LinExpr.sumVars vs5)) }, k3, k4, k5, ?_, h3, h4, h5, ?_, ?_, ?_⟩
  · simp only [phase3, Option.bind_eq_bind]
    rw [he1]
    simp only [Option.some_bind]
    rw [he2]
    simp only [Option.some_bind]
    rw [h3]
    simp only [Option.some_bind]
    rw [he3]
    simp only [Option.some_bind]
    rw [h4]
    simp only [Option.some_bind]
    rw [he4]
    simp only [Option.some_bind]
    rw [h5]
    simp only [Option.some_bind]
    rw [he5]
    simp only [Option.some_bind]
  · refine stepsTo_trans (stepsTo_trans (stepsTo_trans (stepsTo_trans hst1 hst2) hst3) hst4)
      (stepsTo_trans hst5 ⟨rfl, rfl, fun n hn => hn, fun c hcc => hcc⟩)
  · exact hWF5
  · show LinExpr.add _ _ = _
    rw [sumVars_eq_nameSumA vs1 _ hn1, sumVars_eq_nameSumA vs2 _ hn2,
      sumVars_eq_nameSumA vs3 _ hn3, sumVars_eq_nameSumA vs4 _ hn4,
      sumVars_eq_nameSumA vs5 _ hn5]
    rfl

theorem setdefaultAppendTalk_tids {d : List (String × List Int)} {sp : String} {tid : Int}
    {g : String × List Int} (hg : g ∈ setdefaultAppendTalk d sp tid) {x : Int} (hx : x ∈ g.2) :
    (∃ g' ∈ d, x ∈ g'.2) ∨ x = tid := by
  unfold setdefaultAppendTalk at hg
  split at hg
  · obtain ⟨p, hp, hpe⟩ := List.mem_map.mp hg
    by_cases hps : (p.1 == sp) = true
    · rw [if_pos hps] at hpe
      subst hpe
      rcases List.mem_append.mp hx with h2 | h2
      · exact Or.inl ⟨p, hp, h2⟩
      · simp at h2
        exact Or.inr h2
    · rw [if_neg hps] at hpe
      subst hpe
      exact Or.inl ⟨p, hp, hx⟩
  · rcases List.mem_append.mp hg with h2 | h2
    · exact Or.inl ⟨g, h2, hx⟩
    · simp at h2
      subst h2
      simp at hx
      exact Or.inr hx

theorem speakerFold_tids (tid : Int) (sps : List String) :
    ∀ (d : List (String × List Int)) (g : String × List Int),
      g ∈ sps.foldl (fun d2 sp => setdefaultAppendTalk d2 sp tid) d →
      ∀ x ∈ g.2, (∃ g' ∈ d, x ∈ g'.2) ∨ x = tid := by
  induction sps with
  | nil =>
    intro d g hg x hx
    exact Or.inl ⟨g, hg, hx⟩
  | cons sp rest ih =>
    intro d g hg x hx
    simp only [List.foldl_cons] at hg
    rcases ih (setdefaultAppendTalk d sp tid) g hg x hx with ⟨g', hg', hx'⟩ | h
    · exact setdefaultAppendTalk_tids hg' hx'
    · exact Or.inr h

theorem talksFold_tids (P : Int → Prop) :
    ∀ (talks : List Talk) (d : List (String × List Int)),
      (∀ g ∈ d, ∀ x ∈ g.2, P x) → (∀ t ∈ talks, P t.id) →
      ∀ g ∈ talks.foldl
        (fun d2 t => t.speakers.foldl (fun d3 sp => setdefaultAppendTalk d3 sp t.id) d2) d,
      ∀ x ∈ g.2, P x := by
  intro talks
  induction talks with
  | nil =>
    intro d hd _ g hg x hx
    exact hd g hg x hx
  | cons t ts ih =>
    intro d hd htp g hg x hx
    simp only [List.foldl_cons] at hg
    refine ih _ ?_ (fun t' ht' => htp t' (List.mem_cons_of_mem _ ht')) g hg x hx
    intro g' hg' x' hx'
    rcases speakerFold_tids t.id t.speakers d g' hg' x' hx' with ⟨g'', hg'', hx''⟩ | h
    · exact hd g'' hg'' x' hx''
    · rw [h]
      exact htp t (List.mem_cons_self _ _)

theorem talksBySpeaker_tids (talks : List Talk) (P : Int → Prop) (hp : ∀ t ∈ talks, P t.id) :
    ∀ g ∈ talksBySpeaker talks, ∀ x ∈ g.2, P x :=
  talksFold_tids P talks [] (by simp) hp

theorem speakerSlotLoop_spec (venues conflicts : List Int) (slots : List Int) (sm : SM)
    (hWF : WFcache sm)
    (hc : ∀ tid ∈ conflicts, ∃ tk, sm.talks_by_id.lookup tid = some tk) :
    ∃ sm', speakerSlotLoop venues conflicts slots sm = some sm' ∧ StepsTo sm sm' ∧
      WFcache sm' ∧ sm'.objective = sm.objective := by
  induction slots generalizing sm with
  | nil => exact ⟨sm, rfl, stepsTo_rfl sm, hWF, rfl⟩
  | cons slot rest ih =>
    have hks : ∀ k ∈ conflicts.flatMap (fun tid => venues.map fun v => (slot, tid, v)),
        ∃ tk, sm.talks_by_id.lookup k.2.1 = some tk := by
      intro k hk
      obtain ⟨tid, htid, hv⟩ := List.mem_flatMap.mp hk
      obtain ⟨v, _, rfl⟩ := List.mem_map.mp hv
      exact hc tid htid
    obtain ⟨vars, sm1, he, hn, hst, hWF1, hobj, _⟩ := callActives_spec _ sm hWF hks
    have hc1 : ∀ tid ∈ conflicts,
        ∃ tk, (sm1.addConstraint (Constr.cle (LinExpr.sumVars vars) 1)).talks_by_id.lookup tid = some tk := by
      intro tid htid
      obtain ⟨tk, h'⟩ := hc tid htid
      refine ⟨tk, ?_⟩
      show sm1.talks_by_id.lookup tid = some tk
      rw [hst.1]
      exact h'
    obtain ⟨sm2, he2, hst2, hWF2, hobj2⟩ :=
      ih (sm1.addConstraint (Constr.cle (LinExpr.sumVars vars) 1)) hWF1 hc1
    have hstep1 : StepsTo sm (sm1.addConstraint (Constr.cle (LinExpr.sumVars vars) 1)) := by
      refine stepsTo_trans hst ⟨rfl, rfl, fun n hn => hn, ?_⟩
      intro c hcc
      exact List.mem_append_left _ hcc
    refine ⟨sm2, ?_, stepsTo_trans hstep1 hst2, hWF2, ?_⟩
    · simp only [speakerSlotLoop, Option.bind_eq_bind]
      rw [he]
      simp only [Option.some_bind]
      exact he2
    · rw [hobj2]
      show sm1.objective = sm.objective
      exact hobj

theorem phase4_spec (venues : List Int) (groups : List (String × List Int)) (sm : SM)
    (hWF : WFcache sm)
    (hg : ∀ g ∈ groups, ∀ tid ∈ g.2, ∃ tk, sm.talks_by_id.lookup tid = some tk) :
    ∃ sm', phase4 venues groups sm = some sm' ∧ StepsTo sm sm' ∧ WFcache sm' ∧
      sm'.objective = sm.objective := by
  induction groups generalizing sm with
  | nil => exact ⟨sm, rfl, stepsTo_rfl sm, hWF, rfl⟩
  | cons g rest ih =>
    by_cases hlen : g.2.length > 1
    · obtain ⟨sm1, he, hst, hWF1, hobj⟩ :=
        speakerSlotLoop_spec venues g.2 sm.slots_available sm hWF
          (hg g (List.mem_cons_self _ _))
      have hg1 : ∀ g' ∈ rest, ∀ tid ∈ g'.2, ∃ tk, sm1.talks_by_id.lookup tid = some tk := by
        intro g' hg' tid htid
        obtain ⟨tk, h'⟩ := hg g' (List.mem_cons_of_mem _ hg') tid htid
        exact ⟨tk, by rw [hst.1]; exact h'⟩
      obtain ⟨sm2, he2, hst2, hWF2, hobj2⟩ := ih sm1 hWF1 hg1
      refine ⟨sm2, ?_, stepsTo_trans hst hst2, hWF2, by rw [hobj2, hobj]⟩
      simp only [phase4, Option.bind_eq_bind, if_pos hlen]
      rw [he]
      simp only [Option.some_bind]
      exact he2
    · obtain ⟨sm2, he2, hst2, hWF2, hobj2⟩ := ih sm hWF (fun g' hg' => hg g' (List.mem_cons_of_mem _ hg'))
      refine ⟨sm2, ?_, hst2, hWF2, hobj2⟩
      simp only [phase4, Option.bind_eq_bind, if_neg hlen]
      simp only [Option.some_bind]
      exact he2

/-! ## The full model build -/

theorem buildPhases_spec (venues : List Int) (talks : List Talk) (old : List (Int × Int × Int))
    (sm0 : SM) (hWF : WFcache sm0) (hm : sm0.talks_by_id = talksMap talks)
    (hold : ∀ k ∈ old, ∃ tk, (talksMap talks).lookup k.2.1 = some tk) :
    ∃ sm' k3 k4 k5, buildPhases venues talks old sm0 = some sm' ∧
      sm'.slots_available = sm0.slots_available ∧
      sm'.talks_by_id = talksMap talks ∧ WFcache sm' ∧
      oldSameVenueKeys (talksMap talks) old = some k3 ∧
      oldAnyVenueKeys (talksMap talks) old = some k4 ∧
      oldDriftKeys (talksMap talks) old = some k5 ∧
      sm'.objective = objExpr sm0.slots_available venues talks k3 k4 k5 ∧
      (∀ t ∈ talks, eqOneConstr venues sm0.slots_available t.id ∈ sm'.constraints) ∧
      (∀ t ∈ talks, ∀ k ∈ startKeys venues sm0.slots_available t.id,
        nameB k.1 k.2.1 k.2.2 ∈ cacheKeys sm') := by
  have ht0 : ∀ t ∈ talks, ∃ tk, sm0.talks_by_id.lookup t.id = some tk := by
    intro t h
    rw [hm]
    exact talksMap_lookup talks t h
  obtain ⟨sm1, he1, hst1, hWF1, hobj1, heq1, hmemB1⟩ :=
    phase1_spec venues sm0.slots_available talks sm0 hWF rfl ht0
  have ht1 : ∀ t ∈ talks, ∃ tk, sm1.talks_by_id.lookup t.id = some tk := by
    intro t h
    obtain ⟨tk, h'⟩ := ht0 t h
    exact ⟨tk, by rw [hst1.1]; exact h'⟩
  obtain ⟨sm2, he2, hst2, hWF2, hobj2⟩ :=
    phase2_spec talks (venueSlotPairs venues sm0.slots_available) sm1 hWF1 ht1
  have hm2 : sm2.talks_by_id = talksMap talks := by rw [hst2.1, hst1.1, hm]
  have ht2 : ∀ t ∈ talks, ∃ tk, sm2.talks_by_id.lookup t.id = some tk := by
    intro t h
    rw [hm2]
    exact talksMap_lookup talks t h
  have hold2 : ∀ k ∈ old, ∃ tk, sm2.talks_by_id.lookup k.2.1 = some tk := by
    intro k h
    rw [hm2]
    exact hold k h
  obtain ⟨sm3, k3, k4, k5, he3, h3, h4, h5, hst3, hWF3, hobj3⟩ :=
    phase3_spec venues talks old sm2 hWF2 ht2 hold2
  have hm3 : sm3.talks_by_id = talksMap talks := by rw [hst3.1, hm2]
  have hg3 : ∀ g ∈ talksBySpeaker talks, ∀ tid ∈ g.2,
      ∃ tk, sm3.talks_by_id.lookup tid = some tk := by
    refine talksBySpeaker_tids talks (fun x => ∃ tk, sm3.talks_by_id.lookup x = some tk) ?_
    intro t h
    rw [hm3]
    exact talksMap_lookup talks t h
  obtain ⟨sm4, he4, hst4, hWF4, hobj4⟩ := phase4_spec venues (talksBySpeaker talks) sm3 hWF3 hg3
  have hs2 : sm2.slots_available = sm0.slots_available := by rw [hst2.2.1, hst1.2.1]
  refine ⟨sm4, k3, k4, k5, ?_, ?_, ?_, hWF4, ?_, ?_, ?_, ?_, ?_, ?_⟩
  · simp only [buildPhases, Option.bind_eq_bind]
    rw [he1]
    simp only [Option.some_bind]
    rw [he2]
    simp only [Option.some_bind]
    rw [he3]
    simp only [Option.some_bind]
    exact he4
  · rw [hst4.2.1, hst3.2.1, hs2]
  · rw [hst4.1, hm3]
  · rw [← hm2]
    exact h3
  · rw [← hm2]
    exact h4
  · rw [← hm2]
    exact h5
  · rw [hobj4, hobj3, hs2]
  · intro t h
    exact hst4.2.2.2 _ (hst3.2.2.2 _ (hst2.2.2.2 _ (heq1 t h)))
  · intro t h k hk
    exact hst4.2.2.1 _ (hst3.2.2.1 _ (hst2.2.2.1 _ (hmemB1 t h k hk)))

theorem get_problem_spec (sm : SM) (venues : List Int) (talks : List Talk)
    (old : List (Int × Int × Int))
    (hold : ∀ k ∈ old, ∃ tk, (talksMap talks).lookup k.2.1 = some tk) :
    ∃ sm' k3 k4 k5, get_problem sm venues talks old = some sm' ∧
      sm'.slots_available = sm.slots_available ∧
      sm'.talks_by_id = talksMap talks ∧ WFcache sm' ∧
      oldSameVenueKeys (talksMap talks) old = some k3 ∧
      oldAnyVenueKeys (talksMap talks) old = some k4 ∧
      oldDriftKeys (talksMap talks) old = some k5 ∧
      sm'.objective = objExpr sm.slots_available venues talks k3 k4 k5 ∧
      (∀ t ∈ talks, eqOneConstr venues sm.slots_available t.id ∈ sm'.constraints) ∧
      (∀ t ∈ talks, ∀ k ∈ startKeys venues sm.slots_available t.id,
        nameB k.1 k.2.1 k.2.2 ∈ cacheKeys sm') :=
  buildPhases_spec venues talks old
    { sm with
      constraints := []
      objective := LinExpr.cst 0
      var_cache := []
      talks_by_id := talksMap talks
      next := 0 }
    (fun p hp => absurd hp (List.not_mem_nil p)) rfl hold

/-! ## Claim C3: the objective -/

theorem specSameVenueKeys_eq (m : List (Int × Talk)) (old : List (Int × Int × Int)) :
    specSameVenueKeys m old = oldSameVenueKeys m old := by
  induction old with
  | nil => rfl
  | cons k rest ih =>
    unfold specSameVenueKeys oldSameVenueKeys
    rw [ih]
    cases m.lookup k.2.1 with
    | none => rfl
    | some t =>
      simp only [Option.bind_eq_bind, Option.some_bind]
      cases oldSameVenueKeys m rest with
      | none => rfl
      | some ks =>
        simp only [Option.some_bind]
        have h : k.1 + t.duration - 1 + 1 = k.1 + t.duration := by omega
        rw [h]

theorem specAnyVenueKeys_eq (m : List (Int × Talk)) (old : List (Int × Int × Int)) :
    specAnyVenueKeys m old = oldAnyVenueKeys m old := by
  induction old with
  | nil => rfl
  | cons k rest ih =>
    unfold specAnyVenueKeys oldAnyVenueKeys
    rw [ih]
    cases m.lookup k.2.1 with
    | none => rfl
    | some t =>
      simp only [Option.bind_eq_bind, Option.some_bind]
      cases oldAnyVenueKeys m rest with
      | none => rfl
      | some ks =>
        simp only [Option.some_bind]
        have h : k.1 + t.duration - 1 + 1 = k.1 + t.duration := by omega
        rw [h]

theorem specDriftKeys_eq (m : List (Int × Talk)) (old : List (Int × Int × Int)) :
    specDriftKeys m old = oldDriftKeys m old := by
  induction old with
  | nil => rfl
  | cons k rest ih =>
    unfold specDriftKeys oldDriftKeys
    rw [ih]
    cases m.lookup k.2.1 with
    | none => rfl
    | some t =>
      simp only [Option.bind_eq_bind, Option.some_bind]
      cases oldDriftKeys m rest with
      | none => rfl
      | some ks =>
        simp only [Option.some_bind]
        have h : k.1 + t.duration - 1 + 6 + 1 = k.1 + t.duration + 6 := by omega
        rw [h]

/-- C3: the objective built by `get_problem` is exactly the single linear
combination the specification describes: weight 5 on active over preferred
venues × available slots, 10 on active over preferred slots × venues, 10 on
active over each prior placement's spanned window in the same venue, 5 on
the same prior windows over the talk's allowed venues, and 1 on the ±6-slot
drift windows over the talk's allowed venues. -/
theorem objective_matches_spec (sm : SM) (venues : List Int) (talks : List Talk)
    (old : List (Int × Int × Int))
    (hold : ∀ k ∈ old, ∃ tk, (talksMap talks).lookup k.2.1 = some tk) :
    ∃ sm' ob, get_problem sm venues talks old = some sm' ∧
      specObjective sm.slots_available venues talks (talksMap talks) old = some ob ∧
      sm'.objective = ob := by
  obtain ⟨sm', k3, k4, k5, he, _, _, _, h3, h4, h5, hobj, _, _⟩ :=
    get_problem_spec sm venues talks old hold
  refine ⟨sm', objExpr sm.slots_available venues talks k3 k4 k5, he, ?_, hobj⟩
  unfold specObjective
  rw [specSameVenueKeys_eq, specAnyVenueKeys_eq, specDriftKeys_eq, h3, h4, h5]
  simp only [Option.bind_eq_bind, Option.some_bind]
  rfl

/-- Witness for C3: a concrete build with one talk and one prior placement. -/
theorem objective_matches_spec_witness :
    ∃ sm' ob, get_problem wSM [101] [wTalk] [(0, 1, 101)] = some sm' ∧
      specObjective wSM.slots_available [101] [wTalk] (talksMap [wTalk]) [(0, 1, 101)] = some ob ∧
      sm'.objective = ob :=
  objective_matches_spec wSM [101] [wTalk] [(0, 1, 101)]
    (by
      intro k hk
      simp only [List.mem_singleton] at hk
      subst hk
      exact ⟨wTalk, rfl⟩)

/-! ## Claim C8: no early rejection of malformed input -/

/-- C8 (amended): the system performs no input validation at all — for every
input (malformed talks included) the model build `get_problem` proceeds and
produces a problem; it never rejects before model building. -/
theorem model_build_never_rejects (sm : SM) (venues : List Int) (talks : List Talk) :
    (get_problem sm venues talks []).isSome := by
  obtain ⟨sm', _, _, _, he, _⟩ :=
    get_problem_spec sm venues talks [] (fun k hk => absurd hk (List.not_mem_nil k))
  rw [he]
  rfl

/-- Counterexample for C8 as stated: a talk with non-positive duration (0) is
not rejected — the model build runs and, under an optimal solver status, the
talk is even returned in the placement. -/
theorem no_early_rejection_counterexample :
    ((get_problem wSM [101] [wBadTalk] []).isSome = true) ∧
    ((schedule_talks wSM [wBadTalk] [] "Optimal" wRhoBad).map Prod.fst =
      some (Except.ok [(0, 1, 101)])) := by
  constructor
  · rfl
  · rfl

/-! ## Claim C5: Unsatisfiable iff non-optimal status -/

/-- C5: `schedule_talks` raises `Unsatisfiable` (the `Except.error` outcome)
iff the solver status is not `"Optimal"`, in which case no placement at all
is returned; on `"Optimal"` it never raises. -/
theorem schedule_talks_unsat_iff (sm : SM) (talks : List Talk) (old : List (Int × Int × Int))
    (status : String) (ρ : String → Int)
    (hold : ∀ k ∈ old, ∃ tk, (talksMap talks).lookup k.2.1 = some tk) :
    ((schedule_talks sm talks old status ρ).map Prod.fst = some (Except.error ())) ↔
      status ≠ "Optimal" := by
  obtain ⟨sm', _, _, _, he, _⟩ := get_problem_spec sm (derivedVenues talks) talks old hold
  simp only [schedule_talks, he]
  by_cases hst : status = "Optimal"
  · rw [if_pos hst]
    constructor
    · intro h
      cases hx : extractGo ρ (prodKeys sm'.slots_available talks (derivedVenues talks)) sm' with
      | none =>
        rw [hx] at h
        simp at h
      | some p =>
        obtain ⟨res, sm''⟩ := p
        rw [hx] at h
        simp at h
    · intro h
      exact absurd hst h
  · rw [if_neg hst]
    constructor
    · intro _
      exact hst
    · intro _
      rfl

/-- Witness for C5: a non-optimal status on a concrete input raises. -/
theorem schedule_talks_unsat_iff_witness :
    (((schedule_talks wSM [wTalk] [] "Infeasible" wRho).map Prod.fst =
      some (Except.error ())) ↔ ("Infeasible" : String) ≠ "Optimal") :=
  schedule_talks_unsat_iff wSM [wTalk] [] "Infeasible" wRho
    (fun k hk => absurd hk (List.not_mem_nil k))

/-! ## Counting lemmas for the exactly-one-start argument -/

theorem cached_name_of_mem {sm : SM} (hWF : WFcache sm) {n : String} (h : n ∈ cacheKeys sm) :
    ∃ var, sm.var_cache.lookup n = some var ∧ var.name = n := by
  obtain ⟨var, hv⟩ := Option.isSome_iff_exists.mp (lookup_isSome_of_mem_keys h)
  exact ⟨var, hv, hWF _ (lookup_mem hv)⟩

theorem extract_cached (ρ : String → Int) (keys : List (Int × Int × Int)) (sm : SM)
    (hWF : WFcache sm)
    (hmem : ∀ k ∈ keys, nameB k.1 k.2.1 k.2.2 ∈ cacheKeys sm) :
    extractGo ρ keys sm =
      some (keys.filter (fun k => decide (ρ (nameB k.1 k.2.1 k.2.2) = 1)), sm) := by
  induction keys with
  | nil => rfl
  | cons k ks ih =>
    obtain ⟨var, hv, hn⟩ := cached_name_of_mem hWF (hmem k (List.mem_cons_self _ _))
    have ihh := ih (fun k' h' => hmem k' (List.mem_cons_of_mem _ h'))
    simp only [extractGo, Option.bind_eq_bind]
    rw [start_var_cached hv]
    simp only [Option.some_bind]
    rw [ihh]
    simp only [Option.some_bind, List.filter_cons]
    by_cases hρ : ρ (nameB k.1 k.2.1 k.2.2) = 1
    · rw [hn, if_pos hρ, if_pos (by simpa using hρ)]
      rfl
    · rw [hn, if_neg hρ, if_neg (by simpa using hρ)]
      rfl

theorem evalLin_sumNames (ρ : String → Int) (names : List String) :
    evalLin ρ ⟨names.map (fun n => ((1 : Int), n)), 0⟩ = (names.map ρ).sum := by
  unfold evalLin
  rw [List.map_map, add_zero]
  exact congrArg List.sum (List.map_congr_left fun a _ => one_mul (ρ a))

theorem sum01_count (l : List Int) (h : ∀ x ∈ l, x = 0 ∨ x = 1) :
    l.sum = (l.countP (fun x => decide (x = 1)) : Int) := by
  induction l with
  | nil => simp
  | cons a l ih =>
    have ih' := ih (fun x hx => h x (List.mem_cons_of_mem _ hx))
    rcases h a (List.mem_cons_self _ _) with h0 | h1
    · subst h0
      rw [List.sum_cons, List.countP_cons, ih']
      simp
    · subst h1
      rw [List.sum_cons, List.countP_cons, ih']
      have hd : (decide ((1 : Int) = 1)) = true := by decide
      rw [hd, if_pos rfl]
      push_cast
      omega

theorem sum_map_add {α : Type} (l : List α) (g h : α → Nat) :
    (l.map fun b => g b + h b).sum = (l.map g).sum + (l.map h).sum := by
  induction l with
  | nil => rfl
  | cons a l ih =>
    simp only [List.map_cons, List.sum_cons, ih]
    omega

theorem countP_eq_sum_ite {α : Type} (p : α → Bool) (l : List α) :
    l.countP p = (l.map fun b => if p b then 1 else 0).sum := by
  induction l with
  | nil => rfl
  | cons a l ih =>
    rw [List.countP_cons, List.map_cons, List.sum_cons, ih]
    by_cases hpa : p a = true
    · rw [if_pos hpa]
      omega
    · rw [if_neg hpa]
      omega

theorem countP_product_swap {α β : Type} (f : α → β → Bool) (l1 : List α) (l2 : List β) :
    (l1.map fun a => l2.countP (fun b => f a b)).sum =
    (l2.map fun b => l1.countP (fun a => f a b)).sum := by
  induction l1 with
  | nil =>
    simp only [List.map_nil, List.sum_nil]
    symm
    apply List.sum_eq_zero
    intro x hx
    obtain ⟨b, _, rfl⟩ := List.mem_map.mp hx
    simp
  | cons a l1 ih =>
    rw [List.map_cons, List.sum_cons, ih]
    conv_rhs => rw [show (fun b => (a :: l1).countP fun a' => f a' b) =
      fun b => l1.countP (fun a' => f a' b) + (if f a b then 1 else 0)
      from funext fun b => List.countP_cons _ _ _]
    rw [sum_map_add, ← countP_eq_sum_ite]
    have he : List.countP (f a) l2 = List.countP (fun b => f a b) l2 := rfl
    omega

theorem sum_map_eq_of_unique {α : Type} (l : List α) (hnd : l.Nodup)
    (f : α → Nat) (a : α) (ha : a ∈ l) (hz : ∀ b ∈ l, b ≠ a → f b = 0) :
    (l.map f).sum = f a := by
  induction l with
  | nil => cases ha
  | cons b bs ih =>
    obtain ⟨hnotin, hnd'⟩ := List.nodup_cons.mp hnd
    rw [List.map_cons, List.sum_cons]
    rcases List.mem_cons.mp ha with rfl | hmem
    · have hz' : (bs.map f).sum = 0 := by
        apply List.sum_eq_zero
        intro x hx
        obtain ⟨c, hc, rfl⟩ := List.mem_map.mp hx
        exact hz c (List.mem_cons_of_mem _ hc) (fun hca => hnotin (hca ▸ hc))
      omega
    · have hb : f b = 0 := by
        apply hz b (List.mem_cons_self _ _)
        intro hba
        exact hnotin (hba ▸ hmem)
      rw [hb, ih hnd' hmem (fun c hc hca => hz c (List.mem_cons_of_mem _ hc) hca)]
      omega

theorem evalLin_nameB_keys (ρ : String → Int) (keys : List (Int × Int × Int)) :
    evalLin ρ ⟨keys.map (fun k => ((1 : Int), nameB k.1 k.2.1 k.2.2)), 0⟩ =
      (keys.map (fun k => ρ (nameB k.1 k.2.1 k.2.2))).sum := by
  unfold evalLin
  rw [List.map_map, add_zero]
  exact congrArg List.sum (List.map_congr_left fun a _ => one_mul _)

theorem count_main (slots venues : List Int) (talks : List Talk) (t : Talk)
    (htm : t ∈ talks) (hnd : (talks.map Talk.id).Nodup) (g : Int → Int → Bool) :
    (slots.flatMap fun s => talks.flatMap fun tk => venues.map fun v => (s, tk.id, v)).countP
        (fun k => decide (k.2.1 = t.id) && g k.1 k.2.2) =
      (venues.flatMap fun v => slots.map fun s => ((s : Int), t.id, v)).countP
        (fun k => g k.1 k.2.2) := by
  have hinner : ∀ s : Int, ∀ tk ∈ talks,
      (venues.map fun v => ((s : Int), tk.id, v)).countP
        (fun k => decide (k.2.1 = t.id) && g k.1 k.2.2) =
      if tk.id = t.id then venues.countP (fun v => g s v) else 0 := by
    intro s tk _
    rw [List.countP_map]
    by_cases hid : tk.id = t.id
    · rw [if_pos hid]
      apply List.countP_congr
      intro v _
      simp [Function.comp, hid]
    · rw [if_neg hid]
      apply List.countP_eq_zero.mpr
      intro v _
      simp [Function.comp, hid]
  have hmid : ∀ s : Int,
      (talks.flatMap fun tk => venues.map fun v => ((s : Int), tk.id, v)).countP
        (fun k => decide (k.2.1 = t.id) && g k.1 k.2.2) = venues.countP (fun v => g s v) := by
    intro s
    rw [List.countP_flatMap]
    rw [sum_map_eq_of_unique talks (List.Nodup.of_map _ hnd) _ t htm ?hz]
    case hz =>
      intro tk htk hne
      simp only [Function.comp]
      rw [hinner s tk htk, if_neg ?hne2]
      case hne2 =>
        intro hid
        exact hne (List.inj_on_of_nodup_map hnd htk htm hid)
    simp only [Function.comp]
    rw [hinner s t htm, if_pos rfl]
  rw [List.countP_flatMap, List.countP_flatMap]
  have hL : slots.map ((List.countP fun k => decide (k.2.1 = t.id) && g k.1 k.2.2) ∘
      fun s => talks.flatMap fun tk => venues.map fun v => (s, tk.id, v)) =
      slots.map (fun s => venues.countP (fun v => g s v)) :=
    List.map_congr_left fun s _ => by simpa [Function.comp] using hmid s
  have hR : venues.map ((List.countP fun k => g k.1 k.2.2) ∘
      fun v => slots.map fun s => ((s : Int), t.id, v)) =
      venues.map (fun v => slots.countP (fun s => g s v)) :=
    List.map_congr_left fun v _ => by
      simp only [Function.comp]
      rw [List.countP_map]
      rfl
  rw [hL, hR]
  exact countP_product_swap g slots venues

/-! ## Claim C4: result extraction and exactly one triple per talk -/

/-- C4: after a solve with optimal status, `schedule_talks` returns exactly
the triples (slot, talk, venue) — over all available slots, input talks and
derived venues — whose start variable solved to exactly 1; the model contains
the exactly-one-start constraint for every talk, and therefore (for any
solver assignment that satisfies the constraints and respects the variable
bounds) the returned list contains exactly one triple per input talk. -/
theorem schedule_talks_extraction (sm : SM) (talks : List Talk)
    (old : List (Int × Int × Int)) (ρ : String → Int)
    (hold : ∀ k ∈ old, ∃ tk, (talksMap talks).lookup k.2.1 = some tk)
    (hids : (talks.map Talk.id).Nodup)
    (sm' : SM) (hgp : get_problem sm (derivedVenues talks) talks old = some sm')
    (hresp : respects ρ sm') (hsat : satisfies ρ sm'.constraints) :
    ∃ res, schedule_talks sm talks old "Optimal" ρ = some (Except.ok res, sm') ∧
      res = (prodKeys sm.slots_available talks (derivedVenues talks)).filter
        (fun k => decide (ρ (nameB k.1 k.2.1 k.2.2) = 1)) ∧
      (∀ t ∈ talks,
        eqOneConstr (derivedVenues talks) sm.slots_available t.id ∈ sm'.constraints) ∧
      ∀ t ∈ talks, res.countP (fun k => decide (k.2.1 = t.id)) = 1 := by
  obtain ⟨sm2, k3, k4, k5, he, hslots, htbi, hWF', h3, h4, h5, hobj, heqone, hcached⟩ :=
    get_problem_spec sm (derivedVenues talks) talks old hold
  rw [hgp] at he
  have hss : sm' = sm2 := Option.some.inj he
  subst hss
  have hkeys : ∀ k ∈ prodKeys sm'.slots_available talks (derivedVenues talks),
      nameB k.1 k.2.1 k.2.2 ∈ cacheKeys sm' := by
    intro k hk
    obtain ⟨s, hsm, hrest⟩ := List.mem_flatMap.mp hk
    obtain ⟨tk, htkm, hvm⟩ := List.mem_flatMap.mp hrest
    obtain ⟨v, hvv, rfl⟩ := List.mem_map.mp hvm
    apply hcached tk htkm
    apply List.mem_flatMap.mpr
    refine ⟨v, hvv, List.mem_map.mpr ⟨s, ?_, rfl⟩⟩
    rw [← hslots]
    exact hsm
  have hext := extract_cached ρ (prodKeys sm'.slots_available talks (derivedVenues talks))
    sm' hWF' hkeys
  refine ⟨(prodKeys sm'.slots_available talks (derivedVenues talks)).filter
      (fun k => decide (ρ (nameB k.1 k.2.1 k.2.2) = 1)), ?_, ?_, heqone, ?_⟩
  · simp only [schedule_talks, hgp]
    rw [if_pos trivial, hext]
  · rw [hslots]
  · intro t htm
    have hcst := hsat _ (heqone t htm)
    have hc1 : evalLin ρ ⟨(startKeys (derivedVenues talks) sm.slots_available t.id).map
        (fun k => ((1 : Int), nameB k.1 k.2.1 k.2.2)), 0⟩ = evalLin ρ (LinExpr.cst 1) := hcst
    rw [evalLin_nameB_keys] at hc1
    have hc2 : ((startKeys (derivedVenues talks) sm.slots_available t.id).map
        (fun k => ρ (nameB k.1 k.2.1 k.2.2))).sum = 1 := by
      rw [hc1]
      rfl
    have h01 : ∀ x ∈ (startKeys (derivedVenues talks) sm.slots_available t.id).map
        (fun k => ρ (nameB k.1 k.2.1 k.2.2)), x = 0 ∨ x = 1 := by
      intro x hx
      obtain ⟨k, hk, rfl⟩ := List.mem_map.mp hx
      obtain ⟨var, hvlk, hvname⟩ := cached_name_of_mem hWF' (hcached t htm k hk)
      have hre := hresp _ (lookup_mem hvlk)
      rw [hvname] at hre
      cases hvk : var.kind with
      | binary => exact hre.1 hvk
      | fixedZero => exact Or.inl (hre.2 hvk)
    have hcount1 : (startKeys (derivedVenues talks) sm.slots_available t.id).countP
        (fun k => decide (ρ (nameB k.1 k.2.1 k.2.2) = 1)) = 1 := by
      have hs01 := sum01_count _ h01
      rw [hc2, List.countP_map] at hs01
      have heq : List.countP ((fun x => decide (x = 1)) ∘ fun k => ρ (nameB k.1 k.2.1 k.2.2))
          (startKeys (derivedVenues talks) sm.slots_available t.id) =
          List.countP (fun k => decide (ρ (nameB k.1 k.2.1 k.2.2) = 1))
          (startKeys (derivedVenues talks) sm.slots_available t.id) := rfl
      rw [heq] at hs01
      omega
    rw [List.countP_filter]
    have hcong : List.countP (fun k => decide (k.2.1 = t.id) &&
          decide (ρ (nameB k.1 k.2.1 k.2.2) = 1))
        (prodKeys sm'.slots_available talks (derivedVenues talks)) =
        List.countP (fun k => decide (k.2.1 = t.id) &&
          decide (ρ (nameB k.1 t.id k.2.2) = 1))
        (prodKeys sm'.slots_available talks (derivedVenues talks)) := by
      apply List.countP_congr
      intro k _
      by_cases hk1 : k.2.1 = t.id
      · simp [hk1]
      · simp [hk1]
    rw [hcong]
    have hcm : (sm'.slots_available.flatMap fun s => talks.flatMap fun tk =>
          (derivedVenues talks).map fun v => (s, tk.id, v)).countP
          (fun k => decide (k.2.1 = t.id) && decide (ρ (nameB k.1 t.id k.2.2) = 1)) =
        ((derivedVenues talks).flatMap fun v => sm'.slots_available.map
          fun s => ((s : Int), t.id, v)).countP
          (fun k => decide (ρ (nameB k.1 t.id k.2.2) = 1)) :=
      count_main sm'.slots_available (derivedVenues talks) talks t htm hids
        (fun s v => decide (ρ (nameB s t.id v) = 1))
    rw [show prodKeys sm'.slots_available talks (derivedVenues talks) =
      (sm'.slots_available.flatMap fun s => talks.flatMap fun tk =>
        (derivedVenues talks).map fun v => (s, tk.id, v)) from rfl]
    rw [hcm]
    have hcong2 : List.countP (fun k => decide (ρ (nameB k.1 t.id k.2.2) = 1))
        ((derivedVenues talks).flatMap fun v => sm'.slots_available.map
          fun s => ((s : Int), t.id, v)) =
        List.countP (fun k => decide (ρ (nameB k.1 k.2.1 k.2.2) = 1))
        ((derivedVenues talks).flatMap fun v => sm'.slots_available.map
          fun s => ((s : Int), t.id, v)) := by
      apply List.countP_congr
      intro k hkmem
      obtain ⟨v, _, hsm2⟩ := List.mem_flatMap.mp hkmem
      obtain ⟨s, _, rfl⟩ := List.mem_map.mp hsm2
      exact Iff.rfl
    rw [hcong2]
    rw [show ((derivedVenues talks).flatMap fun v => sm'.slots_available.map
        fun s => ((s : Int), t.id, v)) =
      startKeys (derivedVenues talks) sm'.slots_available t.id from rfl]
    rw [hslots]
    exact hcount1

/-- Witness for C4: one talk, one slot, one venue, the assignment `wRho`. -/
theorem schedule_talks_extraction_witness :
    ∃ res, schedule_talks wSM [wTalk] [] "Optimal" wRho =
        some (Except.ok res,
          (get_problem wSM (derivedVenues [wTalk]) [wTalk] []).getD SM.init) ∧
      res = (prodKeys wSM.slots_available [wTalk] (derivedVenues [wTalk])).filter
        (fun k => decide (wRho (nameB k.1 k.2.1 k.2.2) = 1)) ∧
      (∀ t ∈ [wTalk], eqOneConstr (derivedVenues [wTalk]) wSM.slots_available t.id ∈
        ((get_problem wSM (derivedVenues [wTalk]) [wTalk] []).getD SM.init).constraints) ∧
      ∀ t ∈ [wTalk], res.countP (fun k => decide (k.2.1 = t.id)) = 1 :=
  schedule_talks_extraction wSM [wTalk] [] wRho
    (fun k hk => absurd hk (List.not_mem_nil k))
    (by decide)
    ((get_problem wSM (derivedVenues [wTalk]) [wTalk] []).getD SM.init)
    (by rfl)
    (by decide)
    (by decide)

/-! ## Claim C9: the per-event spacing override leaks to later events -/

/-- Counterexample for C9 as stated: with `schedule`'s spacing argument 1, an
event carrying `"spacing_slots": 3` followed by an event without the field —
the second event's talk is built with spacing 3 (duration 6), not with the
argument value 1 (which would give duration 4). -/
theorem spacing_override_leaks_counterexample :
    ((buildTalks 0 [wEvOverride, wEvPlain] 1 []).talks[1]? = some (mkTalkOf 0 wEvPlain 3)) ∧
    ¬ ((buildTalks 0 [wEvOverride, wEvPlain] 1 []).talks[1]? = some (mkTalkOf 0 wEvPlain 1)) := by
  constructor
  · rfl
  · decide

/-- C9 (amended): the spacing override is sticky within one `schedule` call —
each event's slot sets and duration are computed with the most recent
`"spacing_slots"` override among the events up to and including itself
(`runSpacing`), falling back to the `schedule` argument only when no earlier
event carried an override. -/
theorem spacing_override_sticky (ev : Int) (e : Event) :
    ∀ (evs : List Event) (s0 : Int) (avail : List Int) (i : Nat), evs[i]? = some e →
      (buildTalks ev evs s0 avail).talks[i]? =
        some (mkTalkOf ev e (runSpacing s0 (evs.take (i + 1)))) := by
  intro evs
  induction evs with
  | nil =>
    intro s0 avail i hi
    simp at hi
  | cons e0 es ih =>
    intro s0 avail i hi
    cases i with
    | zero =>
      rw [List.getElem?_cons_zero] at hi
      cases hi
      rw [show (buildTalks ev (e :: es) s0 avail).talks =
        mkTalkOf ev e (e.spacing_slots.getD s0) ::
          (buildTalks ev es (e.spacing_slots.getD s0)
            (pyUnion avail (e.time_ranges.flatMap fun r =>
              calculate_slots ev r.start r.stop (e.spacing_slots.getD s0)))).talks from rfl]
      rw [List.getElem?_cons_zero, List.take_succ_cons]
      rfl
    | succ n =>
      rw [List.getElem?_cons_succ] at hi
      rw [show (buildTalks ev (e0 :: es) s0 avail).talks =
        mkTalkOf ev e0 (e0.spacing_slots.getD s0) ::
          (buildTalks ev es (e0.spacing_slots.getD s0)
            (pyUnion avail (e0.time_ranges.flatMap fun r =>
              calculate_slots ev r.start r.stop (e0.spacing_slots.getD s0)))).talks from rfl]
      rw [List.getElem?_cons_succ]
      rw [ih _ _ n hi, List.take_succ_cons]
      rfl

/-- Witness for C9 (amended): the second event of the counterexample input. -/
theorem spacing_override_sticky_witness :
    (buildTalks 0 [wEvOverride, wEvPlain] 1 []).talks[1]? =
      some (mkTalkOf 0 wEvPlain (runSpacing 1 ([wEvOverride, wEvPlain].take 2))) :=
  spacing_override_sticky 0 wEvPlain [wEvOverride, wEvPlain] 1 [] 1 (by rfl)

/-! ## Claim C10: `slots_available` only ever grows -/

theorem pyUnion_mem (a b : List Int) (x : Int) : x ∈ pyUnion a b ↔ x ∈ a ∨ x ∈ b := by
  unfold pyUnion
  simp only [List.mem_append, List.mem_filter, decide_eq_true_eq]
  constructor
  · rintro (h | ⟨h, _⟩)
    exacts [Or.inl h, Or.inr h]
  · intro h
    by_cases ha : x ∈ a
    · exact Or.inl ha
    · rcases h with h | h
      · exact absurd h ha
      · exact Or.inr ⟨h, ha⟩

/-- C10: the `slots_available` set only ever grows — the `schedule` event loop
unions each event's slots into the incoming set and removes nothing, so after
one pass the set is the initial set plus all event slots, and a second pass
on the same instance builds over the union of both passes' slots rather than
the second input's slots alone. -/
theorem slots_available_accumulates :
    (∀ (ev : Int) (evs : List Event) (s0 : Int) (avail : List Int) (x : Int),
      x ∈ (buildTalks ev evs s0 avail).avail ↔ x ∈ avail ∨ x ∈ collectSlots ev evs s0) ∧
    (∀ (ev : Int) (evs1 evs2 : List Event) (s1 s2 : Int) (avail : List Int) (x : Int),
      x ∈ (buildTalks ev evs2 s2 (buildTalks ev evs1 s1 avail).avail).avail ↔
        x ∈ avail ∨ x ∈ collectSlots ev evs1 s1 ∨ x ∈ collectSlots ev evs2 s2) := by
  have main : ∀ (ev : Int) (evs : List Event) (s0 : Int) (avail : List Int) (x : Int),
      x ∈ (buildTalks ev evs s0 avail).avail ↔ x ∈ avail ∨ x ∈ collectSlots ev evs s0 := by
    intro ev evs
    induction evs with
    | nil =>
      intro s0 avail x
      simp [buildTalks, collectSlots]
    | cons e es ih =>
      intro s0 avail x
      rw [show (buildTalks ev (e :: es) s0 avail).avail =
        (buildTalks ev es (e.spacing_slots.getD s0)
          (pyUnion avail (e.time_ranges.flatMap fun r =>
            calculate_slots ev r.start r.stop (e.spacing_slots.getD s0)))).avail from rfl]
      rw [ih, pyUnion_mem]
      rw [show collectSlots ev (e :: es) s0 =
        (e.time_ranges.flatMap fun r =>
          calculate_slots ev r.start r.stop (e.spacing_slots.getD s0)) ++
          collectSlots ev es (e.spacing_slots.getD s0) from rfl]
      rw [List.mem_append]
      tauto
  refine ⟨main, ?_⟩
  intro ev evs1 evs2 s1 s2 avail x
  rw [main, main]
  tauto
